import Mathlib

/-!
# Verification of the Hermes2D selective assembler / constraint resolver core

Shallow embedding, in Lean 4, of the parts of the Hermes2D code base that the
checked specification talks about:

* `EssentialBCs` marker cache and lookup
  (`src/hermes2d/src/boundary_conditions/essential_boundary_conditions.cpp`),
* `WeakForm::get_blocks` and the selectivity predicates `form_to_be_assembled`
  (`src/hermes2d/src/weakform/weakform.cpp`,
   `src/hermes2d/src/discrete_problem/discrete_problem_selective_assembler.cpp`),
* `DiscreteProblemSelectiveAssembler::prepare_sparse_structure` / `set_spaces`,
* `H1Space` DOF assignment and the constrained-node baselist merge
  (`src/hermes2d/src/space/space_h1.cpp`),
* the Newton loop of `RungeKutta::rk_time_step`
  (`src/hermes2d/src/runge_kutta.cpp`).

Conventions: C++ `double` values are modelled as `ℚ` (the properties checked
here are about control flow and exact arithmetic identities, not rounding);
machine `int` is modelled as `ℤ`; objects that the code compares by pointer
identity are modelled by identifiers (`ℕ`); external collaborators (meshes,
shape functions, neighbor search) are abstract parameters.
-/

namespace Hermes

/-- `Hermes::HermesSqrtEpsilon` (hermes_common): the square root of the double
precision machine epsilon, `sqrt(2^-52) = 2^-26`.  Only its comparisons with
scaling factors matter here. -/
def HermesSqrtEpsilon : ℚ := 1 / 2 ^ 26

theorem HermesSqrtEpsilon_pos : 0 < HermesSqrtEpsilon := by norm_num [HermesSqrtEpsilon]

/-! ## Essential boundary conditions (`essential_boundary_conditions.cpp`)

An `EssentialBoundaryCondition` is identified by an id (standing for the C++
object pointer) and carries its list of marker strings.  `HERMES_ANY` is the
distinguished wildcard marker constant (defined in hermes_common, outside the
assembler sources; its concrete string value is irrelevant, only its identity
is used in comparisons). -/

def HERMES_ANY : String := "-1234"

structure EssentialBC where
  id : ℕ
  markers : List String
deriving Repr, DecidableEq

/-- The state built by `EssentialBCs<Scalar>::create_marker_cache`: the
`HermesAnyBC` member and the parallel `markers` / `BCs` vectors (modelled as
one association list, kept in push-back order). -/
structure MarkerCache where
  HermesAnyBC : Option EssentialBC
  cache : List (String × EssentialBC)
deriving Repr, DecidableEq

/-- Loop state of `create_marker_cache`: the `hermes_any_set` flag and the
`any_set` pointer (which, despite its name, records the last *specific*-marker
BC seen). -/
structure CacheBuildState where
  hermes_any_set : Bool
  any_set : Option EssentialBC
  acc : MarkerCache
deriving Repr, DecidableEq

/-- One iteration of the inner loop of `create_marker_cache`, processing one
marker string `mk` of boundary condition `bc`; `Except.error` models the
thrown `Hermes::Exceptions::Exception`. -/
def markerStep (st : CacheBuildState) (bc : EssentialBC) (mk : String) :
    Except String CacheBuildState :=
  if st.hermes_any_set then
    .error "Attempt to define a BC on HERMES_ANY together with a BC on a specific part."
  else if mk = HERMES_ANY then
    match st.any_set with
    | some _ => .error "Attempt to define a BC on HERMES_ANY together with a BC on a specific part."
    | none =>
        .ok { st with hermes_any_set := true,
                      acc := { st.acc with HermesAnyBC := some bc } }
  else
    if (st.acc.cache.map Prod.fst).contains mk then
      .error "Attempt to define more than one description of the BC on the same part of the boundary."
    else
      .ok { st with any_set := some bc,
                    acc := { st.acc with cache := st.acc.cache ++ [(mk, bc)] } }

/-- The iteration of `markerStep` over a list of (condition, marker) pairs,
stopping at the first thrown exception. -/
def cacheLoop (st : CacheBuildState) : List (EssentialBC × String) → Except String CacheBuildState
  | [] => .ok st
  | p :: ps =>
      match markerStep st p.1 p.2 with
      | .ok st' => cacheLoop st' ps
      | .error e => .error e

/-- The pair sequence the nested loops of `create_marker_cache` visit: every
marker of every boundary condition, in registration order. -/
def markerPairs (all : List EssentialBC) : List (EssentialBC × String) :=
  all.flatMap (fun bc => bc.markers.map (fun mk => (bc, mk)))

/-- The nested loops of `create_marker_cache` over all boundary conditions and
their markers. -/
def create_marker_cache (all : List EssentialBC) : Except String MarkerCache :=
  (cacheLoop ⟨false, none, ⟨none, []⟩⟩ (markerPairs all)).map CacheBuildState.acc

/-- `EssentialBCs<Scalar>::get_boundary_condition`: wildcard first, then the
linear scan of the `markers` vector. -/
def get_boundary_condition (mc : MarkerCache) (marker : String) : Option EssentialBC :=
  match mc.HermesAnyBC with
  | some bc => some bc
  | none =>
      match mc.cache.find? (fun p => p.1 = marker) with
      | some p => some p.2
      | none => none

/-! ## `WeakForm::get_blocks` and the selectivity predicates -/

/-- The data of a `MatrixForm<Scalar>` (base of the volume / surface / DG
matrix forms) that `get_blocks` and `form_to_be_assembled` read: component
indices `i`, `j`, the symmetry flag `sym` (`0 = HERMES_NONSYM`,
`1 = HERMES_SYM`, `-1 = HERMES_ANTISYM`; always `0` for surface and DG forms
built through the public API, but the field is inherited by all three kinds),
the scaling factor, the `assembleEverywhere` flag and the resolved internal
area markers. -/
structure MatrixFormData where
  i : ℕ
  j : ℕ
  sym : ℤ
  scaling_factor : ℚ
  assembleEverywhere : Bool
  areas_internal : List ℤ
deriving Repr, DecidableEq

/-- A boolean `neq × neq` block matrix, as the function sending `(i, j)` to
the entry `blocks[i][j]`. -/
def BlockMatrix := ℕ → ℕ → Bool

/-- Entry update `blocks[r][c] = true`. -/
def blockSet (b : BlockMatrix) (r c : ℕ) : BlockMatrix :=
  fun i j => if i = r ∧ j = c then true else b i j

/-- The initialization loop of `get_blocks`: all entries false, the diagonal
true when `force_diagonal_blocks` is set. -/
def blocksInit (force_diagonal_blocks : Bool) : BlockMatrix :=
  fun i j => force_diagonal_blocks && decide (i = j)

/-- First statement of the `mfvol` loop body of `get_blocks`: mark `(i, j)`
when the scaling factor is above threshold. -/
def markVolFst (b : BlockMatrix) (f : MatrixFormData) : BlockMatrix :=
  if |f.scaling_factor| > HermesSqrtEpsilon then blockSet b f.i f.j else b

/-- Second statement of the `mfvol` loop body: additionally mark `(j, i)` when
the `sym` flag is nonzero. -/
def markVolSnd (b : BlockMatrix) (f : MatrixFormData) : BlockMatrix :=
  if f.sym ≠ 0 then
    (if |f.scaling_factor| > HermesSqrtEpsilon then blockSet b f.j f.i else b)
  else b

/-- Body of the `mfvol` loop of `get_blocks`: the two marking statements in
sequence. -/
def markVol (b : BlockMatrix) (f : MatrixFormData) : BlockMatrix :=
  markVolSnd (markVolFst b f) f

/-- Body of the `mfsurf` / `mfDG` loops of `get_blocks`: mark `(i, j)` only. -/
def markNoSym (b : BlockMatrix) (f : MatrixFormData) : BlockMatrix :=
  if |f.scaling_factor| > HermesSqrtEpsilon then blockSet b f.i f.j else b

/-- `WeakForm<Scalar>::get_blocks`. -/
def get_blocks (force_diagonal_blocks : Bool)
    (mfvol mfsurf mfDG : List MatrixFormData) : BlockMatrix :=
  mfDG.foldl markNoSym
    (mfsurf.foldl markNoSym
      (mfvol.foldl markVol (blocksInit force_diagonal_blocks)))

/-! ## Traversal states and `form_to_be_assembled`

An `Element` carries the per-element data the assembler reads: the number of
vertices/edges, the region marker, and per-edge boundary flags and markers.
A `Traverse::State` holds one (possibly absent) active element per space, the
representing element `rep` and the active surface index `isurf`. -/

structure Element where
  id : ℕ
  nvert : ℕ
  marker : ℤ
  enBnd : ℕ → Bool
  enMarker : ℕ → ℤ

structure TraverseState where
  e : List (Option Element)
  rep : Element
  isurf : ℕ

/-- The extra context of `DiscreteProblemSelectiveAssembler` that
`form_to_be_assembled` consults: the optional block-weighting table
(`this->block_weights`, with its `get_A` accessor) and
`this->RK_original_spaces_count`. -/
structure BlockWeights where
  get_A : ℕ → ℕ → ℚ

/-- `form_to_be_assembled(MatrixForm<Scalar>*, Traverse::State*)`: both
participating components' elements present, scaling factor above threshold,
and (when a block-weighting table exists) block weight above threshold. -/
def form_to_be_assembled_matrix (block_weights : Option BlockWeights)
    (RK_original_spaces_count : ℕ) (form : MatrixFormData)
    (s : TraverseState) : Bool :=
  match s.e.getD form.i none, s.e.getD form.j none with
  | some _, some _ =>
      if |form.scaling_factor| < HermesSqrtEpsilon then false
      else
        match block_weights with
        | some bw =>
            if |bw.get_A (form.i / RK_original_spaces_count)
                 (form.j / RK_original_spaces_count)| < HermesSqrtEpsilon then false
            else true
        | none => true
  | _, _ => false

/-- `form_to_be_assembled(MatrixFormVol<Scalar>*, Traverse::State*)`: the base
predicate, then `assembleEverywhere` or membership of the active element's
region marker in the form's resolved markers. -/
def form_to_be_assembled_matrix_vol (block_weights : Option BlockWeights)
    (RK_original_spaces_count : ℕ) (form : MatrixFormData)
    (s : TraverseState) : Bool :=
  if !form_to_be_assembled_matrix block_weights RK_original_spaces_count form s then
    false
  else if form.assembleEverywhere then
    true
  else
    form.areas_internal.contains s.rep.marker

/-- `form_to_be_assembled(MatrixFormSurf<Scalar>*, Traverse::State*)`: the base
predicate, a nonzero marker on the active edge, then `assembleEverywhere` or
marker membership. -/
def form_to_be_assembled_matrix_surf (block_weights : Option BlockWeights)
    (RK_original_spaces_count : ℕ) (form : MatrixFormData)
    (s : TraverseState) : Bool :=
  if !form_to_be_assembled_matrix block_weights RK_original_spaces_count form s then
    false
  else if s.rep.enMarker s.isurf = 0 then
    false
  else if form.assembleEverywhere then
    true
  else
    form.areas_internal.contains (s.rep.enMarker s.isurf)

/-! ## `DiscreteProblemSelectiveAssembler`: state and `prepare_sparse_structure`

The assembler's persistent members.  Matrix and vector objects are compared by
pointer identity in the C++; they are modelled by identifiers
(`Option ℕ`, `none` standing for a null pointer). -/

structure AssemblerState where
  sp_seq : Option (List ℤ)
  spaces_size : ℕ
  matrix_structure_reusable : Bool
  previous_mat : Option ℕ
  vector_structure_reusable : Bool
  previous_rhs : Option ℕ
deriving Repr, DecidableEq

/-- The freshly constructed assembler. -/
def AssemblerState.initial : AssemblerState :=
  ⟨none, 0, false, none, false, none⟩

/-- `DiscreteProblemSelectiveAssembler<Scalar>::set_spaces`, taking the vector
of `get_seq()` values of the spaces to set.  On the first call it only
records the size and fills `sp_seq` with `-1`; on later calls it invalidates
both reusability flags whenever any stored sequence number differs from the
incoming one, and stores the incoming numbers. -/
def set_spaces (st : AssemblerState) (seqs : List ℤ) : AssemblerState :=
  match st.sp_seq with
  | none =>
      { st with spaces_size := seqs.length,
                sp_seq := some (List.replicate seqs.length (-1)) }
  | some old =>
      let changed := (List.range st.spaces_size).any
        (fun i => decide (seqs.getD i 0 ≠ old.getD i 0))
      { st with
        sp_seq := some ((List.range st.spaces_size).map (fun i => seqs.getD i 0)),
        matrix_structure_reusable :=
          st.matrix_structure_reusable && !changed,
        vector_structure_reusable :=
          st.vector_structure_reusable && !changed }

/-- `DiscreteProblemSelectiveAssembler<Scalar>::set_weak_formulation` resets
both reusability flags. -/
def set_weak_formulation (st : AssemblerState) : AssemblerState :=
  { st with matrix_structure_reusable := false, vector_structure_reusable := false }

/-- The operations `prepare_sparse_structure` performs on the sparse matrix
object, in order.  `pre_add_ij row col` records one registered nonzero
position. -/
inductive MatOp
  | zero
  | free
  | prealloc (ndof : ℤ)
  | pre_add_ij (row col : ℤ)
  | alloc
deriving Repr, DecidableEq

/-- The operations performed on the vector object. -/
inductive VecOp
  | zero
  | alloc (ndof : ℤ)
deriving Repr, DecidableEq

/-- The external inputs of one `prepare_sparse_structure` call: the traversal
states, per-space assembly lists (as functions of the element), the block
matrix derived from the weak form, DG bookkeeping, and the neighbor-search
capability. -/
structure PrepareInput where
  ndof : ℤ
  spaces_size : ℕ
  states : List TraverseState
  /-- `spaces[i]->get_element_assembly_list(e, al)`: the DOF array of the
  assembly list of element `e` in space `i`. -/
  asm : ℕ → Element → List ℤ
  blocks : BlockMatrix
  /-- `this->wf->is_DG() && !this->wf->mfDG.empty()` -/
  dg_active : Bool
  /-- Neighbor search: for a space index and an (element, edge) pair, the
  elements found across the edge. -/
  neighbors : ℕ → Element → ℕ → List Element
  /-- The current size of the vector object (`rhs->get_size()`). -/
  rhs_size : ℤ

/-- The DG cross-element registration loops of `prepare_sparse_structure`
(lines 82–175) for one traversal state: for every pair of space indices
`(m, el)`, every non-boundary edge `ed` of the state's first element, and
every neighbor of the `el`-space element across `ed`, register the products
of the nonnegative DOFs of the `m`-assembly list with the nonnegative DOFs of
the neighbor's assembly list, in both block orientations that are enabled.
(The C++ dereferences `current_state->e[el]` unchecked here; states whose
element entries are absent never reach this code, and are skipped in the
model.) -/
def dgPreAdds (inp : PrepareInput) (s : TraverseState) : List MatOp :=
  match s.e.getD 0 none with
  | none => []
  | some e0 =>
    (List.range inp.spaces_size).flatMap (fun m =>
      (List.range inp.spaces_size).flatMap (fun el =>
        (List.range e0.nvert).flatMap (fun ed =>
          match s.e.getD el none with
          | none => []
          | some eel =>
            if eel.enBnd ed then []
            else
              (inp.neighbors el eel ed).flatMap (fun neigh =>
                if (inp.blocks m el || inp.blocks el m)
                    && (s.e.getD m none).isSome then
                  (match s.e.getD m none with
                  | none => []
                  | some em =>
                    let am := inp.asm m em
                    let an := inp.asm el neigh
                    am.flatMap (fun di =>
                      if di ≥ 0 then
                        an.flatMap (fun dj =>
                          if dj ≥ 0 then
                            (if inp.blocks m el then [MatOp.pre_add_ij di dj] else [])
                              ++ (if inp.blocks el m then [MatOp.pre_add_ij dj di] else [])
                          else [])
                      else []))
                else []))))

/-- The intra-element registration loops of `prepare_sparse_structure`
(lines 177–219) for one traversal state: for every enabled block `(m, n)`
with both elements present, register the products of the nonnegative DOFs of
the two assembly lists.  The `spaces_size == 1` fast path of the C++ performs
exactly the `m = n = 0` instance of the general loop. -/
def blockPreAdds (inp : PrepareInput) (s : TraverseState) : List MatOp :=
  (List.range inp.spaces_size).flatMap (fun m =>
    (List.range inp.spaces_size).flatMap (fun n =>
      if inp.blocks m n
          && (s.e.getD m none).isSome && (s.e.getD n none).isSome then
        (match s.e.getD m none, s.e.getD n none with
        | some em, some en =>
          let dofs_m := inp.asm m em
          let dofs_n := inp.asm n en
          dofs_m.flatMap (fun di =>
            if di ≥ 0 then
              dofs_n.flatMap (fun dj =>
                if dj ≥ 0 then [MatOp.pre_add_ij di dj] else [])
            else [])
        | _, _ => [])
      else []))

/-- The full rebuild pass (the body of the
`(!matrix_structure_reusable || mat != previous_mat) && mat` branch):
`free`, `prealloc`, per-state DG and intra-element registrations, `alloc`. -/
def rebuildOps (inp : PrepareInput) : List MatOp :=
  [MatOp.free, MatOp.prealloc inp.ndof]
    ++ inp.states.flatMap (fun s =>
        (if inp.dg_active then dgPreAdds inp s else []) ++ blockPreAdds inp s)
    ++ [MatOp.alloc]

/-- `DiscreteProblemSelectiveAssembler<Scalar>::prepare_sparse_structure`:
returns the boolean result of the call, the successor state, and the traces
of operations performed on the matrix and on the vector objects. -/
def prepare_sparse_structure (st : AssemblerState) (mat rhs : Option ℕ)
    (inp : PrepareInput) : Bool × AssemblerState × List MatOp × List VecOp :=
  let matZero : List MatOp :=
    if st.matrix_structure_reusable ∧ mat.isSome ∧ mat = st.previous_mat then
      [MatOp.zero]
    else []
  let vecReuse : List VecOp :=
    if st.vector_structure_reusable ∧ rhs.isSome ∧ rhs = st.previous_rhs then
      if inp.rhs_size = 0 then [VecOp.alloc inp.ndof] else [VecOp.zero]
    else []
  let matRebuild : Bool :=
    decide ((¬ st.matrix_structure_reusable ∨ mat ≠ st.previous_mat) ∧ mat.isSome)
  let matOps : List MatOp :=
    matZero ++ (if matRebuild then rebuildOps inp else [])
  let vecRebuild : Bool :=
    decide ((¬ st.vector_structure_reusable ∨ rhs ≠ st.previous_rhs) ∧ rhs.isSome)
  let vecOps : List VecOp :=
    vecReuse ++ (if vecRebuild then [VecOp.alloc inp.ndof] else [])
  let st' : AssemblerState :=
    { st with
      matrix_structure_reusable := st.matrix_structure_reusable || matRebuild,
      vector_structure_reusable := st.vector_structure_reusable || vecRebuild,
      previous_mat := mat,
      previous_rhs := rhs }
  (true, st', matOps, vecOps)

/-! ## `H1Space`: edge-DOF assignment (`space_h1.cpp`, `assign_edge_dofs`)

The DOF sentinels are `static` members of `Space` (declared in the space
header, outside the assembler sources): both are negative, `H2D_UNASSIGNED_DOF`
marking a node not yet numbered and `H2D_CONSTRAINED_DOF` marking a
constrained / boundary-projected node. -/

def H2D_UNASSIGNED_DOF : ℤ := -2

def H2D_CONSTRAINED_DOF : ℤ := -1

/-- The fields of a mesh edge node that `assign_edge_dofs` reads: its id, the
reference count `ref`, the boundary flag `bnd`, whether
`mesh->peek_vertex_node(en->p1, en->p2)` finds a mid-edge vertex node, and the
internal boundary marker. -/
structure EdgeNodeInfo where
  nodeId : ℕ
  ref : ℕ
  bnd : Bool
  hasMidVertex : Bool
  marker : ℤ
deriving Repr, DecidableEq

/-- The mutable space state that the edge pass touches: the per-node `dof` and
`n` records and the `next_dof` / `edge_functions_count` counters. -/
structure H1EdgeState where
  ndata_dof : ℕ → ℤ
  ndata_n : ℕ → ℤ
  next_dof : ℤ
  edge_functions_count : ℤ

/-- One edge item of the `assign_edge_dofs` loops: the owning element's order,
the edge order `get_edge_order_internal(en)` (determined by the mesh, taken as
data here) and the edge node. -/
structure EdgeItem where
  elemOrder : ℤ
  edgeOrder : ℤ
  en : EdgeNodeInfo
deriving Repr, DecidableEq

/-- The loop body of `H1Space<Scalar>::assign_edge_dofs` for one element edge.
The three structurally identical assignment branches of the C++ are the
`else` arms of a dangling-`else` chain
`if (en->bnd) if (essential_bcs) if (bc found) constrained; else … else … else …`,
so a new DOF block is assigned in every case except
`bnd ∧ essential_bcs ∧ bc found`. -/
def assign_edge_dofs_step (essential_bcs : Option MarkerCache)
    (get_user_marker : ℤ → String) (it : EdgeItem) (st : H1EdgeState) : H1EdgeState :=
  if it.elemOrder ≤ 0 then st
  else if st.ndata_dof it.en.nodeId ≠ H2D_UNASSIGNED_DOF then st
  else if it.en.ref > 1 ∨ it.en.bnd ∨ it.en.hasMidVertex then
    let ndofs := it.edgeOrder - 1
    let stn : H1EdgeState :=
      { st with ndata_n := fun k => if k = it.en.nodeId then ndofs else st.ndata_n k }
    let bcFound : Bool := it.en.bnd &&
      (match essential_bcs with
       | some mc => (get_boundary_condition mc (get_user_marker it.en.marker)).isSome
       | none => false)
    if bcFound then
      { stn with ndata_dof :=
          fun k => if k = it.en.nodeId then H2D_CONSTRAINED_DOF else st.ndata_dof k }
    else
      { stn with
        ndata_dof := fun k => if k = it.en.nodeId then st.next_dof else st.ndata_dof k,
        next_dof := st.next_dof + ndofs,
        edge_functions_count := st.edge_functions_count + ndofs }
  else
    { st with ndata_n := fun k => if k = it.en.nodeId then -1 else st.ndata_n k }

/-- The whole edge pass: the loop over all active elements and their edges,
flattened to one item list. -/
def assign_edge_dofs (essential_bcs : Option MarkerCache)
    (get_user_marker : ℤ → String) (items : List EdgeItem) (st : H1EdgeState) :
    H1EdgeState :=
  items.foldl (fun s it => assign_edge_dofs_step essential_bcs get_user_marker it s) st

/-! ## `H1Space`: baselists and the constrained-node merge (`space_h1.cpp`)

`BaseComponent` is one `(dof, coef)` entry of a baselist. -/

structure BaseComponent where
  dof : ℤ
  coef : ℚ
deriving Repr, DecidableEq, Inhabited

/-- The state threaded through `merge_baselists`: the result array (a list of
fixed length `max_result`; the C++ array's uninitialized entries are modelled
as `default`), the write pointer `current` (an index), the pointer `last` to
the most recently emitted component, the constraining edge node (its entry
dof and dof count; `none` once consumed or when null), and the out-parameter
`edge_dofs`. -/
structure MergeState where
  result : List BaseComponent
  current : ℕ
  last : Option ℕ
  edge : Option (ℤ × ℕ)
  edge_dofs : Option ℕ
deriving Repr, DecidableEq

/-- `H1Space<Scalar>::output_component`. -/
def output_component (st : MergeState) (mn : BaseComponent) : MergeState :=
  let coalesce : Bool :=
    match st.last with
    | some l => decide ((st.result.getD l default).dof = mn.dof)
    | none => false
  if coalesce then
    let l := st.last.getD 0
    let old := st.result.getD l default
    let upd : BaseComponent := ⟨old.dof, old.coef + mn.coef * (1 / 2)⟩
    { st with result := st.result.set l upd }
  else
    let st1 : MergeState :=
      match st.edge with
      | some (ed, en) =>
          if ed ≤ mn.dof then
            { st with edge_dofs := some st.current,
                      current := st.current + (if ed ≠ mn.dof then en else 0),
                      edge := none }
          else st
      | none => st
    { st1 with
      result := st1.result.set st1.current ⟨mn.dof, mn.coef * (1 / 2)⟩,
      last := some st1.current,
      current := st1.current + 1 }

/-- The main loop of `merge_baselists` together with the two finishing loops:
always consume the head with the smaller dof (the second list on ties). -/
def mergeLoop : List BaseComponent → List BaseComponent → MergeState → MergeState
  | x :: xs, y :: ys, st =>
      if x.dof < y.dof then mergeLoop xs (y :: ys) (output_component st x)
      else mergeLoop (x :: xs) ys (output_component st y)
  | x :: xs, [], st => mergeLoop xs [] (output_component st x)
  | [], y :: ys, st => mergeLoop [] ys (output_component st y)
  | [], [], st => st
termination_by l1 l2 _ => l1.length + l2.length

/-- The number of edge dofs still pending reservation. -/
def edgeCount : Option (ℤ × ℕ) → ℕ
  | some (_, en) => en
  | none => 0

/-- The post-loop fixup of `merge_baselists`: if the inputs never reached the
edge node's dof, reserve the edge block after the end now; then shrink the
result to the emitted count. -/
def mergeFinish (st : MergeState) : List BaseComponent × Option ℕ × ℕ :=
  match st.edge with
  | some (_, en) =>
      (st.result.take (st.current + en), some st.current, st.current + en)
  | none => (st.result.take st.current, st.edge_dofs, st.current)

/-- `H1Space<Scalar>::merge_baselists`.  Returns the (shrunk-to-fit) result
array, the `edge_dofs` out-parameter (as an index into the result) and the
emitted component count `ncomponents`. -/
def merge_baselists (l1 l2 : List BaseComponent) (edge : Option (ℤ × ℕ)) :
    List BaseComponent × Option ℕ × ℕ :=
  mergeFinish (mergeLoop l1 l2
    ⟨List.replicate (l1.length + l2.length + edgeCount edge) default,
      0, none, edge, none⟩)

/-- The loop of `update_constrained_nodes` that fills the reserved `edge_dofs`
block: for `k < en`, write `⟨ed + k, f k⟩` at position `p + k`, where `f k`
is the edge shape function value at the edge midpoint (an opaque shape-set
capability). -/
def fill_edge_dofs (res : List BaseComponent) (p : ℕ) (ed : ℤ) (en : ℕ)
    (f : ℕ → ℚ) : List BaseComponent :=
  (List.range en).foldl (fun r k => r.set (p + k) ⟨ed + k, f k⟩) res

/-- The merged-and-filled baselist that `update_constrained_nodes` stores for
a constrained mid-edge vertex node: `merge_baselists` with the constraining
edge node `(ed, en)`, followed by the edge-DOF fill. -/
def merged_baselist (l1 l2 : List BaseComponent) (ed : ℤ) (en : ℕ)
    (f : ℕ → ℚ) : List BaseComponent :=
  match merge_baselists l1 l2 (some (ed, en)) with
  | (res, some p, _) => fill_edge_dofs res p ed en f
  | (res, none, _) => res

/-- One `add_triplet` record of an `AsmList`. -/
structure Triplet where
  idx : ℤ
  dof : ℤ
  coef : ℚ
deriving Repr, DecidableEq

/-- `H1Space<Scalar>::get_vertex_assembly_list`: for an unconstrained vertex,
one triplet (coefficient `1` for a real DOF, else the stored boundary
coefficient, `0` when the `vertex_bc_coef` pointer is null); for a
constrained vertex, one triplet per baselist entry with nonzero coefficient. -/
def get_vertex_assembly_list (constrainedVertex : Bool) (index : ℤ) (dof : ℤ)
    (vertex_bc_coef : Option ℚ) (baselist : List BaseComponent) : List Triplet :=
  if !constrainedVertex then
    [⟨index, dof, if dof ≥ 0 then 1 else vertex_bc_coef.getD 0⟩]
  else
    baselist.flatMap (fun c =>
      if c.coef ≠ 0 then [⟨index, c.dof, c.coef⟩] else [])

/-! ## Functional layer for the merge proofs

`mergeSeq` is the order in which the main loop of `merge_baselists` consumes
its inputs; `outRun` / `outList` describe the effect of the chain of
`output_component` calls (halving and coalescing adjacent equal dofs);
`halfMergePair` is the same computation phrased as a two-list recursion. -/

def mergeSeq : List BaseComponent → List BaseComponent → List BaseComponent
  | x :: xs, y :: ys =>
      if x.dof < y.dof then x :: mergeSeq xs (y :: ys) else y :: mergeSeq (x :: xs) ys
  | l1, [] => l1
  | [], l2 => l2
termination_by l1 l2 => l1.length + l2.length

/-- Halve a component's coefficient. -/
def half (c : BaseComponent) : BaseComponent := ⟨c.dof, c.coef * (1 / 2)⟩

/-- The pending-output fold: `c` is the most recently emitted component (into
which later equal dofs coalesce). -/
def outRun (c : BaseComponent) : List BaseComponent → List BaseComponent
  | [] => [c]
  | x :: xs =>
      if x.dof = c.dof then outRun ⟨c.dof, c.coef + x.coef * (1 / 2)⟩ xs
      else c :: outRun (half x) xs

/-- The output of the chain of `output_component` calls on a consumption
sequence. -/
def outList : List BaseComponent → List BaseComponent
  | [] => []
  | x :: xs => outRun (half x) xs

/-- The half-coefficient merge of two baselists as a two-list recursion:
one-sided dofs are halved, shared dofs are combined with half of each
coefficient. -/
def halfMergePair : List BaseComponent → List BaseComponent → List BaseComponent
  | x :: xs, y :: ys =>
      if x.dof < y.dof then half x :: halfMergePair xs (y :: ys)
      else if y.dof < x.dof then half y :: halfMergePair (x :: xs) ys
      else ⟨x.dof, y.coef * (1 / 2) + x.coef * (1 / 2)⟩ :: halfMergePair xs ys
  | l1, [] => l1.map half
  | [], l2 => l2.map half
termination_by l1 l2 => l1.length + l2.length

/-- The block of fresh edge-DOF components written by the fill loop. -/
def edgeBlock (ed : ℤ) (en : ℕ) (f : ℕ → ℚ) : List BaseComponent :=
  (List.range en).map (fun (k : ℕ) => (⟨ed + (k : ℤ), f k⟩ : BaseComponent))

/-! ## The Newton loop of `RungeKutta::rk_time_step` (`runge_kutta.cpp`)

The loop's control flow depends on the sequence of measured residual norms,
the linearity flag and the three Newton parameters; everything else (assembly,
the linear solve, the damped update) only feeds the next residual norm, so the
residual norms are taken as an abstract sequence `res`, indexed by the value
of the iteration counter `it` at the time of the measurement. -/

/-- The Newton iterations with `it = k ≥ 2` (a linear problem never reaches
them: it breaks out of the first iteration).  Returns the value
`rk_time_step` produces from the loop: `false` on a residual-norm blow-up,
otherwise — after the `break` at iteration `k` — the value of
`!(it >= newton_max_iter)`. -/
def newtonRest (res : ℕ → ℚ) (tol max_allowed : ℚ) (max_iter : ℤ) (k : ℕ) : Bool :=
  if res k > max_allowed then false
  else if h : res k < tol ∨ (k : ℤ) > max_iter then decide ((k : ℤ) < max_iter)
  else newtonRest res tol max_allowed max_iter (k + 1)
termination_by (max_iter + 2).toNat - k
decreasing_by
  simp only [not_or, not_lt] at h
  omega

/-- The Newton loop of `rk_time_step` (lines 119–207): the first iteration
(`it = 1`) can never satisfy the `&& it > 1` break condition; after its solve,
a linear problem breaks immediately with `it = 1`, everything else continues
with `it = 2`. -/
def rk_newton (res : ℕ → ℚ) (is_linear : Bool) (tol max_allowed : ℚ)
    (max_iter : ℤ) : Bool :=
  if res 1 > max_allowed then false
  else if is_linear then decide ((1 : ℤ) < max_iter)
  else newtonRest res tol max_allowed max_iter 2

/-- The sum of the coefficients of a baselist. -/
def coefSum (l : List BaseComponent) : ℚ := (l.map BaseComponent.coef).sum

/-- Sorted strictly ascending by DOF index (hence duplicate-free). -/
def sortedByDof (l : List BaseComponent) : Prop :=
  List.Pairwise (fun a b => a.dof < b.dof) l

/-- The prefix of a consumption sequence whose dofs lie strictly below the
constraining edge dof `ed` (consumed before the edge block is reserved). -/
def lowPart (l : List BaseComponent) (ed : ℤ) : List BaseComponent :=
  l.takeWhile (fun c => decide (c.dof < ed))

/-- The rest of the consumption sequence, from the first component with
`ed ≤ dof` on (consumed after the edge block is reserved). -/
def highPart (l : List BaseComponent) (ed : ℤ) : List BaseComponent :=
  l.dropWhile (fun c => decide (c.dof < ed))

/-! # Theorems

## Essential boundary condition lookup (claim C9) -/

/-- Characterization of a successful `markerStep` on a specific (non-wildcard)
marker: no wildcard seen yet, the marker not cached yet, and the pair is
appended. -/
theorem markerStep_spec_ok {st st' : CacheBuildState} {bc : EssentialBC} {mk : String}
    (h : markerStep st bc mk = .ok st') (hmk : mk ≠ HERMES_ANY) :
    st.hermes_any_set = false ∧
    ((st.acc.cache.map Prod.fst).contains mk = false) ∧
    st' = { st with any_set := some bc,
                    acc := { st.acc with cache := st.acc.cache ++ [(mk, bc)] } } := by
  unfold markerStep at h
  by_cases h1 : st.hermes_any_set = true
  · rw [if_pos h1] at h; cases h
  · rw [if_neg h1, if_neg hmk] at h
    by_cases h2 : (st.acc.cache.map Prod.fst).contains mk = true
    · rw [if_pos h2] at h; cases h
    · rw [if_neg h2] at h
      refine ⟨by simpa using h1, by simpa using h2, ?_⟩
      exact (Except.ok.inj h).symm

/-- Characterization of a successful `markerStep` on the wildcard marker: no
wildcard seen yet, no specific-marker condition seen yet, and `HermesAnyBC`
is set. -/
theorem markerStep_spec_any {st st' : CacheBuildState} {bc : EssentialBC}
    (h : markerStep st bc HERMES_ANY = .ok st') :
    st.hermes_any_set = false ∧ st.any_set = none ∧
    st' = { st with hermes_any_set := true,
                    acc := { st.acc with HermesAnyBC := some bc } } := by
  unfold markerStep at h
  by_cases h1 : st.hermes_any_set = true
  · rw [if_pos h1] at h; cases h
  · rw [if_neg h1, if_pos rfl] at h
    cases h2 : st.any_set with
    | some a => rw [h2] at h; cases h
    | none =>
        rw [h2] at h
        exact ⟨by simpa using h1, rfl, (Except.ok.inj h).symm⟩

theorem cacheLoop_append (A B : List (EssentialBC × String)) (st : CacheBuildState) :
    cacheLoop st (A ++ B) =
      match cacheLoop st A with
      | .ok st' => cacheLoop st' B
      | .error e => .error e := by
  induction A generalizing st with
  | nil => simp [cacheLoop]
  | cons p ps ih =>
      simp only [List.cons_append, cacheLoop]
      cases markerStep st p.1 p.2 with
      | ok st' => exact ih st'
      | error e => rfl

theorem cacheLoop_nil_of_hermes_any {st st' : CacheBuildState}
    {ps : List (EssentialBC × String)} (h : cacheLoop st ps = .ok st')
    (hset : st.hermes_any_set = true) : ps = [] := by
  cases ps with
  | nil => rfl
  | cons p ps =>
      unfold cacheLoop at h
      cases hms : markerStep st p.1 p.2 with
      | error e => rw [hms] at h; cases h
      | ok st1 =>
          by_cases hmk : p.2 = HERMES_ANY
          · rw [hmk] at hms
            have := (markerStep_spec_any hms).1
            rw [hset] at this; cases this
          · have := (markerStep_spec_ok hms hmk).1
            rw [hset] at this; cases this

theorem markerStep_any_set {st st' : CacheBuildState} {bc : EssentialBC} {mk : String}
    (h : markerStep st bc mk = .ok st') (ha : st.any_set ≠ none) :
    st'.any_set ≠ none := by
  by_cases hmk : mk = HERMES_ANY
  · rw [hmk] at h
    exact absurd (markerStep_spec_any h).2.1 ha
  · rw [(markerStep_spec_ok h hmk).2.2]
    simp

theorem cacheLoop_any_set_mono {ps : List (EssentialBC × String)} :
    ∀ {st st' : CacheBuildState}, cacheLoop st ps = .ok st' → st.any_set ≠ none →
      st'.any_set ≠ none := by
  induction ps with
  | nil => intro st st' h ha; cases h; exact ha
  | cons p ps ih =>
      intro st st' h ha
      unfold cacheLoop at h
      cases hms : markerStep st p.1 p.2 with
      | ok st1 => rw [hms] at h; exact ih h (markerStep_any_set hms ha)
      | error e => rw [hms] at h; cases h

theorem cacheLoop_any_set_of_mem {ps : List (EssentialBC × String)} :
    ∀ {st st' : CacheBuildState}, cacheLoop st ps = .ok st' →
      (∃ p ∈ ps, p.2 ≠ HERMES_ANY) → st'.any_set ≠ none := by
  induction ps with
  | nil => intro st st' _ hex; simp at hex
  | cons p ps ih =>
      intro st st' h hex
      unfold cacheLoop at h
      cases hms : markerStep st p.1 p.2 with
      | error e => rw [hms] at h; cases h
      | ok st1 =>
          rw [hms] at h
          obtain ⟨q, hq, hqne⟩ := hex
          rcases List.mem_cons.mp hq with rfl | hq
          · refine cacheLoop_any_set_mono h ?_
            rw [(markerStep_spec_ok hms hqne).2.2]
            simp
          · exact ih h ⟨q, hq, hqne⟩

/-- Success of the marker-cache build rules out mixing a `HERMES_ANY`
condition with a condition on a specific marker, in either registration
order. -/
theorem cacheLoop_no_mixing {ps : List (EssentialBC × String)} {st' : CacheBuildState}
    (h : cacheLoop ⟨false, none, ⟨none, []⟩⟩ ps = .ok st')
    {pa pb : EssentialBC × String} (hpa : pa ∈ ps) (hpaAny : pa.2 = HERMES_ANY)
    (hpb : pb ∈ ps) (hpbSpec : pb.2 ≠ HERMES_ANY) : False := by
  obtain ⟨A, B, rfl⟩ := List.append_of_mem hpa
  rw [cacheLoop_append] at h
  cases hA : cacheLoop ⟨false, none, ⟨none, []⟩⟩ A with
  | error e => rw [hA] at h; cases h
  | ok st1 =>
      rw [hA] at h
      unfold cacheLoop at h
      cases hms : markerStep st1 pa.1 pa.2 with
      | error e => rw [hms] at h; cases h
      | ok st2 =>
          rw [hms] at h
          rw [hpaAny] at hms
          obtain ⟨_, hany1, hst2⟩ := markerStep_spec_any hms
          have hset2 : st2.hermes_any_set = true := by rw [hst2]
          have hBnil : B = [] := cacheLoop_nil_of_hermes_any h hset2
          subst hBnil
          rcases List.mem_append.mp hpb with hb | hb
          · exact cacheLoop_any_set_of_mem hA ⟨pb, hb, hpbSpec⟩ hany1
          · rcases List.mem_cons.mp hb with rfl | hb
            · exact hpbSpec hpaAny
            · simp at hb

theorem cacheLoop_cache_eq {ps : List (EssentialBC × String)} :
    ∀ {st st' : CacheBuildState}, cacheLoop st ps = .ok st' →
      st'.acc.cache = st.acc.cache ++
        (ps.filter (fun p => p.2 ≠ HERMES_ANY)).map (fun p => (p.2, p.1)) := by
  induction ps with
  | nil => intro st st' h; cases h; simp
  | cons p ps ih =>
      intro st st' h
      unfold cacheLoop at h
      cases hms : markerStep st p.1 p.2 with
      | error e => rw [hms] at h; cases h
      | ok st1 =>
          rw [hms] at h
          by_cases hmk : p.2 = HERMES_ANY
          · rw [hmk] at hms
            have hc : st1.acc.cache = st.acc.cache := by
              rw [(markerStep_spec_any hms).2.2]
            rw [ih h, hc]
            simp [hmk]
          · have hc : st1.acc.cache = st.acc.cache ++ [(p.2, p.1)] := by
              rw [(markerStep_spec_ok hms hmk).2.2]
            rw [ih h, hc]
            simp [hmk]

theorem cacheLoop_keys_nodup {ps : List (EssentialBC × String)} :
    ∀ {st st' : CacheBuildState}, cacheLoop st ps = .ok st' →
      (st.acc.cache.map Prod.fst).Nodup → (st'.acc.cache.map Prod.fst).Nodup := by
  induction ps with
  | nil => intro st st' h hn; cases h; exact hn
  | cons p ps ih =>
      intro st st' h hn
      unfold cacheLoop at h
      cases hms : markerStep st p.1 p.2 with
      | error e => rw [hms] at h; cases h
      | ok st1 =>
          rw [hms] at h
          by_cases hmk : p.2 = HERMES_ANY
          · rw [hmk] at hms
            refine ih h ?_
            have hc : st1.acc.cache = st.acc.cache := by
              rw [(markerStep_spec_any hms).2.2]
            rw [hc]; exact hn
          · obtain ⟨_, hnc, hst1⟩ := markerStep_spec_ok hms hmk
            refine ih h ?_
            have hc : st1.acc.cache = st.acc.cache ++ [(p.2, p.1)] := by rw [hst1]
            rw [hc]
            simp only [List.map_append, List.map_cons, List.map_nil]
            rw [List.nodup_append]
            refine ⟨hn, List.nodup_singleton _, ?_⟩
            intro a ha hb
            simp only [List.mem_singleton] at hb
            subst hb
            have : (st.acc.cache.map Prod.fst).contains p.2 = true :=
              List.elem_eq_true_of_mem (by simpa using ha)
            rw [hnc] at this
            cases this

theorem cacheLoop_anyBC {ps : List (EssentialBC × String)} :
    ∀ {st st' : CacheBuildState}, cacheLoop st ps = .ok st' →
      st'.acc.HermesAnyBC = st.acc.HermesAnyBC ∨
        ∃ bc, (bc, HERMES_ANY) ∈ ps ∧ st'.acc.HermesAnyBC = some bc := by
  induction ps with
  | nil => intro st st' h; cases h; exact Or.inl rfl
  | cons p ps ih =>
      intro st st' h
      unfold cacheLoop at h
      cases hms : markerStep st p.1 p.2 with
      | error e => rw [hms] at h; cases h
      | ok st1 =>
          rw [hms] at h
          by_cases hmk : p.2 = HERMES_ANY
          · rw [hmk] at hms
            obtain ⟨_, _, hst1⟩ := markerStep_spec_any hms
            have hset : st1.hermes_any_set = true := by rw [hst1]
            have := cacheLoop_nil_of_hermes_any h hset
            subst this
            cases h
            refine Or.inr ⟨p.1, ?_, by rw [hst1]⟩
            rw [← hmk]
            exact List.mem_cons_self _ _
          · have hsame : st1.acc.HermesAnyBC = st.acc.HermesAnyBC := by
              rw [(markerStep_spec_ok hms hmk).2.2]
            rcases ih h with h1 | ⟨bc, hbcmem, hbceq⟩
            · exact Or.inl (h1.trans hsame)
            · exact Or.inr ⟨bc, List.mem_cons_of_mem _ hbcmem, hbceq⟩

theorem find?_key_unique {cache : List (String × EssentialBC)} {mk : String}
    {bc : EssentialBC} (hmem : (mk, bc) ∈ cache)
    (hn : (cache.map Prod.fst).Nodup) :
    cache.find? (fun p => p.1 = mk) = some (mk, bc) := by
  induction cache with
  | nil => simp at hmem
  | cons q rest ih =>
      simp only [List.map_cons, List.nodup_cons] at hn
      by_cases hq : q.1 = mk
      · have : q = (mk, bc) := by
          rcases List.mem_cons.mp hmem with h | h
          · exact h.symm
          · exact absurd (hq ▸ List.mem_map_of_mem Prod.fst h) hn.1
        rw [List.find?_cons_of_pos _ (by simp [hq])]
        rw [this]
      · rw [List.find?_cons_of_neg _ (by simp [hq])]
        refine ih ?_ hn.2
        rcases List.mem_cons.mp hmem with h | h
        · rw [← h] at hq; simp at hq
        · exact h

/-- Lookup without a wildcard condition is the linear scan. -/
theorem get_boundary_condition_none {mc : MarkerCache} (h : mc.HermesAnyBC = none)
    (marker : String) :
    get_boundary_condition mc marker =
      (mc.cache.find? (fun p => p.1 = marker)).map Prod.snd := by
  unfold get_boundary_condition
  rw [h]
  cases mc.cache.find? (fun p => p.1 = marker) <;> rfl

/-- C9: if a successfully built `EssentialBCs` container holds a boundary
condition registered on the wildcard marker `HERMES_ANY`, then
`get_boundary_condition` returns that wildcard condition for every marker
string; otherwise it returns the condition registered for exactly the queried
marker, or `none` when no registered condition lists the marker; and
registration rejects mixing a `HERMES_ANY` condition with a marker-specific
condition as well as registering two conditions on the same marker. -/
theorem C9_get_boundary_condition (all : List EssentialBC) (mc : MarkerCache)
    (h : create_marker_cache all = .ok mc) :
    ((∀ bc, mc.HermesAnyBC = some bc →
        ((bc, HERMES_ANY) ∈ markerPairs all ∧
          ∀ marker, get_boundary_condition mc marker = some bc))
    ∧ (mc.HermesAnyBC = none →
        ∀ marker,
          (∀ bc, get_boundary_condition mc marker = some bc →
              bc ∈ all ∧ marker ∈ bc.markers)
          ∧ (∀ bc, bc ∈ all → marker ∈ bc.markers → marker ≠ HERMES_ANY →
              get_boundary_condition mc marker = some bc)
          ∧ ((∀ bc ∈ all, marker ∉ bc.markers) →
              get_boundary_condition mc marker = none))
    ∧ (¬ ∃ pa ∈ markerPairs all, ∃ pb ∈ markerPairs all,
          pa.2 = HERMES_ANY ∧ pb.2 ≠ HERMES_ANY)
    ∧ (((markerPairs all).filter (fun p => p.2 ≠ HERMES_ANY)).map
          (fun p => p.2)).Nodup) := by
  unfold create_marker_cache at h
  cases hcl : cacheLoop ⟨false, none, ⟨none, []⟩⟩ (markerPairs all) with
  | error e => rw [hcl] at h; cases h
  | ok stf =>
      rw [hcl] at h
      have hacc : stf.acc = mc := by
        simpa [Except.map] using h
      have hcache : mc.cache =
          ((markerPairs all).filter (fun p => p.2 ≠ HERMES_ANY)).map
            (fun p => (p.2, p.1)) := by
        rw [← hacc]
        simpa using cacheLoop_cache_eq hcl
      have hnodup : (mc.cache.map Prod.fst).Nodup := by
        rw [← hacc]
        exact cacheLoop_keys_nodup hcl (by simp)
      refine ⟨?_, ?_, ?_, ?_⟩
      · intro bc hbc
        constructor
        · rcases cacheLoop_anyBC hcl with h1 | ⟨bc2, hmem, heq⟩
          · rw [hacc] at h1
            rw [hbc] at h1
            cases h1
          · rw [hacc] at heq
            rw [hbc] at heq
            cases heq
            exact hmem
        · intro marker
          unfold get_boundary_condition
          rw [hbc]
      · intro hnone marker
        refine ⟨?_, ?_, ?_⟩
        · intro bc hget
          rw [get_boundary_condition_none hnone] at hget
          cases hfind : mc.cache.find? (fun p => p.1 = marker) with
          | none => rw [hfind] at hget; cases hget
          | some q =>
              rw [hfind] at hget
              simp only [Option.map_some'] at hget
              have hqmem := List.mem_of_find?_eq_some hfind
              have hq1 := List.find?_some hfind
              simp only [decide_eq_true_eq] at hq1
              rw [hcache] at hqmem
              simp only [List.mem_map, List.mem_filter] at hqmem
              obtain ⟨p, ⟨hpmem, _⟩, hpq⟩ := hqmem
              unfold markerPairs at hpmem
              simp only [List.mem_flatMap, List.mem_map] at hpmem
              obtain ⟨bc2, hbc2, mk2, hmk2, hpair⟩ := hpmem
              subst hpair
              subst hpq
              have hq1m : mk2 = marker := hq1
              cases hget
              subst hq1m
              exact ⟨hbc2, hmk2⟩
        · intro bc hbcall hmk hmkne
          rw [get_boundary_condition_none hnone]
          have hmem : (marker, bc) ∈ mc.cache := by
            rw [hcache]
            simp only [List.mem_map, List.mem_filter]
            refine ⟨(bc, marker), ⟨?_, by simpa using hmkne⟩, rfl⟩
            unfold markerPairs
            simp only [List.mem_flatMap, List.mem_map]
            exact ⟨bc, hbcall, marker, hmk, rfl⟩
          rw [find?_key_unique hmem hnodup]
          rfl
        · intro hnolist
          rw [get_boundary_condition_none hnone]
          cases hfind : mc.cache.find? (fun p => p.1 = marker) with
          | none => rfl
          | some q =>
              exfalso
              have hqmem := List.mem_of_find?_eq_some hfind
              have hq1 := List.find?_some hfind
              simp only [decide_eq_true_eq] at hq1
              rw [hcache] at hqmem
              simp only [List.mem_map, List.mem_filter] at hqmem
              obtain ⟨p, ⟨hpmem, _⟩, hpq⟩ := hqmem
              unfold markerPairs at hpmem
              simp only [List.mem_flatMap, List.mem_map] at hpmem
              obtain ⟨bc2, hbc2, mk2, hmk2, hpair⟩ := hpmem
              subst hpair
              subst hpq
              have hq1m : mk2 = marker := hq1
              subst hq1m
              exact hnolist bc2 hbc2 hmk2
      · rintro ⟨pa, hpa, pb, hpb, hpaAny, hpbSpec⟩
        exact cacheLoop_no_mixing hcl hpa hpaAny hpb hpbSpec
      · have hkeys := @cacheLoop_keys_nodup (markerPairs all) ⟨false, none, ⟨none, []⟩⟩ stf hcl (by simp)
        rw [hacc, hcache] at hkeys
        simpa [List.map_map, Function.comp] using hkeys

/-- Witness for C9 at a concrete two-condition container. -/
theorem C9_get_boundary_condition_witness :
    get_boundary_condition ⟨none, [("a", ⟨0, ["a"]⟩), ("b", ⟨1, ["b"]⟩)]⟩ "b" =
      some ⟨1, ["b"]⟩ :=
  ((C9_get_boundary_condition [⟨0, ["a"]⟩, ⟨1, ["b"]⟩]
      ⟨none, [("a", ⟨0, ["a"]⟩), ("b", ⟨1, ["b"]⟩)]⟩ (by rfl)).2.1 rfl "b").2.1
    ⟨1, ["b"]⟩ (by decide) (by decide) (by decide)

/-! ## `get_blocks` characterization and form selectivity (claims C5, C3) -/

theorem blockSet_true_iff (b : BlockMatrix) (r c i j : ℕ) :
    blockSet b r c i j = true ↔ (i = r ∧ j = c) ∨ b i j = true := by
  unfold blockSet
  split <;> simp_all

theorem markNoSym_true_iff (b : BlockMatrix) (f : MatrixFormData) (i j : ℕ) :
    markNoSym b f i j = true ↔
      b i j = true ∨
        (|f.scaling_factor| > HermesSqrtEpsilon ∧ i = f.i ∧ j = f.j) := by
  unfold markNoSym
  by_cases hsf : |f.scaling_factor| > HermesSqrtEpsilon
  · rw [if_pos hsf, blockSet_true_iff]
    constructor
    · rintro (⟨h1, h2⟩ | hb)
      · exact Or.inr ⟨hsf, h1, h2⟩
      · exact Or.inl hb
    · rintro (hb | ⟨_, h1, h2⟩)
      · exact Or.inr hb
      · exact Or.inl ⟨h1, h2⟩
  · rw [if_neg hsf]
    simp [hsf]

theorem markVol_true_iff (b : BlockMatrix) (f : MatrixFormData) (i j : ℕ) :
    markVol b f i j = true ↔
      b i j = true ∨
        (|f.scaling_factor| > HermesSqrtEpsilon ∧ i = f.i ∧ j = f.j) ∨
        (f.sym ≠ 0 ∧ |f.scaling_factor| > HermesSqrtEpsilon ∧ i = f.j ∧ j = f.i) := by
  unfold markVol markVolSnd markVolFst
  by_cases hsym : f.sym ≠ 0
  · rw [if_pos hsym]
    by_cases hsf : |f.scaling_factor| > HermesSqrtEpsilon
    · rw [if_pos hsf, if_pos hsf, blockSet_true_iff, blockSet_true_iff]
      constructor
      · rintro (⟨h1, h2⟩ | (⟨h1, h2⟩ | hb))
        · exact Or.inr (Or.inr ⟨hsym, hsf, h1, h2⟩)
        · exact Or.inr (Or.inl ⟨hsf, h1, h2⟩)
        · exact Or.inl hb
      · rintro (hb | (⟨_, h1, h2⟩ | ⟨_, _, h1, h2⟩))
        · exact Or.inr (Or.inr hb)
        · exact Or.inr (Or.inl ⟨h1, h2⟩)
        · exact Or.inl ⟨h1, h2⟩
    · rw [if_neg hsf, if_neg hsf]
      simp [hsf]
  · rw [if_neg hsym]
    by_cases hsf : |f.scaling_factor| > HermesSqrtEpsilon
    · rw [if_pos hsf, blockSet_true_iff]
      constructor
      · rintro (⟨h1, h2⟩ | hb)
        · exact Or.inr (Or.inl ⟨hsf, h1, h2⟩)
        · exact Or.inl hb
      · rintro (hb | (⟨_, h1, h2⟩ | ⟨hs, _⟩))
        · exact Or.inr hb
        · exact Or.inl ⟨h1, h2⟩
        · exact absurd hs hsym
    · rw [if_neg hsf]
      simp [hsf]

theorem foldl_markNoSym_true_iff (l : List MatrixFormData) (b : BlockMatrix) (i j : ℕ) :
    (l.foldl markNoSym b) i j = true ↔
      b i j = true ∨
        ∃ f ∈ l, |f.scaling_factor| > HermesSqrtEpsilon ∧ i = f.i ∧ j = f.j := by
  induction l generalizing b with
  | nil => simp
  | cons f l ih =>
      rw [List.foldl_cons, ih, markNoSym_true_iff]
      constructor
      · rintro ((hb | hf) | ⟨g, hg, hgp⟩)
        · exact Or.inl hb
        · exact Or.inr ⟨f, List.mem_cons_self _ _, hf⟩
        · exact Or.inr ⟨g, List.mem_cons_of_mem _ hg, hgp⟩
      · rintro (hb | ⟨g, hg, hgp⟩)
        · exact Or.inl (Or.inl hb)
        · rcases List.mem_cons.mp hg with rfl | hg
          · exact Or.inl (Or.inr hgp)
          · exact Or.inr ⟨g, hg, hgp⟩

theorem foldl_markVol_true_iff (l : List MatrixFormData) (b : BlockMatrix) (i j : ℕ) :
    (l.foldl markVol b) i j = true ↔
      b i j = true ∨
        (∃ f ∈ l, |f.scaling_factor| > HermesSqrtEpsilon ∧ i = f.i ∧ j = f.j) ∨
        (∃ f ∈ l, f.sym ≠ 0 ∧ |f.scaling_factor| > HermesSqrtEpsilon ∧
          i = f.j ∧ j = f.i) := by
  induction l generalizing b with
  | nil => simp
  | cons f l ih =>
      rw [List.foldl_cons, ih, markVol_true_iff]
      constructor
      · rintro ((hb | hf | hf) | ⟨g, hg, hgp⟩ | ⟨g, hg, hgp⟩)
        · exact Or.inl hb
        · exact Or.inr (Or.inl ⟨f, List.mem_cons_self _ _, hf⟩)
        · exact Or.inr (Or.inr ⟨f, List.mem_cons_self _ _, hf⟩)
        · exact Or.inr (Or.inl ⟨g, List.mem_cons_of_mem _ hg, hgp⟩)
        · exact Or.inr (Or.inr ⟨g, List.mem_cons_of_mem _ hg, hgp⟩)
      · rintro (hb | ⟨g, hg, hgp⟩ | ⟨g, hg, hgp⟩)
        · exact Or.inl (Or.inl hb)
        · rcases List.mem_cons.mp hg with rfl | hg
          · exact Or.inl (Or.inr (Or.inl hgp))
          · exact Or.inr (Or.inl ⟨g, hg, hgp⟩)
        · rcases List.mem_cons.mp hg with rfl | hg
          · exact Or.inl (Or.inr (Or.inr hgp))
          · exact Or.inr (Or.inr ⟨g, hg, hgp⟩)

/-- C5 (amended): `get_blocks` marks `(i, j)` exactly when the diagonal is
forced and `i = j`, or some volume / surface / DG matrix form with scaling
factor above the epsilon threshold has component indices `(i, j)`, or some
volume matrix form with a nonzero symmetry flag (symmetric or antisymmetric)
and scaling factor above threshold has component indices `(j, i)`.  Surface
and DG forms never mark the transposed block; antisymmetric volume forms do. -/
theorem C5_get_blocks_characterization (force : Bool)
    (mfvol mfsurf mfDG : List MatrixFormData) (i j : ℕ) :
    get_blocks force mfvol mfsurf mfDG i j = true ↔
      (force = true ∧ i = j) ∨
      (∃ f ∈ mfvol, |f.scaling_factor| > HermesSqrtEpsilon ∧ i = f.i ∧ j = f.j) ∨
      (∃ f ∈ mfvol, f.sym ≠ 0 ∧ |f.scaling_factor| > HermesSqrtEpsilon ∧
        i = f.j ∧ j = f.i) ∨
      (∃ f ∈ mfsurf, |f.scaling_factor| > HermesSqrtEpsilon ∧ i = f.i ∧ j = f.j) ∨
      (∃ f ∈ mfDG, |f.scaling_factor| > HermesSqrtEpsilon ∧ i = f.i ∧ j = f.j) := by
  unfold get_blocks
  rw [foldl_markNoSym_true_iff, foldl_markNoSym_true_iff, foldl_markVol_true_iff]
  unfold blocksInit
  simp only [Bool.and_eq_true, decide_eq_true_eq]
  constructor
  · rintro (((h | h | h) | h) | h)
    · exact Or.inl h
    · exact Or.inr (Or.inl h)
    · exact Or.inr (Or.inr (Or.inl h))
    · exact Or.inr (Or.inr (Or.inr (Or.inl h)))
    · exact Or.inr (Or.inr (Or.inr (Or.inr h)))
  · rintro (h | h | h | h | h)
    · exact Or.inl (Or.inl (Or.inl h))
    · exact Or.inl (Or.inl (Or.inr (Or.inl h)))
    · exact Or.inl (Or.inl (Or.inr (Or.inr h)))
    · exact Or.inl (Or.inr h)
    · exact Or.inr h

/-- C5 counterexample to the claim as stated: an antisymmetric (not symmetric)
volume form `(i, j) = (0, 1)` with scaling factor `1` marks the transposed
block `(1, 0)`, although no registered form is symmetric and no registered
form has component indices `(1, 0)`. -/
theorem C5_counterexample :
    get_blocks false [⟨0, 1, -1, 1, true, []⟩] [] [] 1 0 = true ∧
    (∀ f ∈ [(⟨0, 1, -1, 1, true, []⟩ : MatrixFormData)],
      f.sym ≠ 1 ∧ ¬(f.i = 1 ∧ f.j = 0)) := by
  constructor
  · norm_num [get_blocks, markVol, markVolSnd, markVolFst, blockSet, blocksInit,
      HermesSqrtEpsilon]
  · decide

/-- C3: a matrix volume form whose scaling factor has magnitude below the
epsilon threshold is never selected by `form_to_be_assembled`, for any
traversal state and any block-weight table, and contributes no entry to the
block matrix computed by `get_blocks`. -/
theorem C3_zero_scaling_form_inert (bw : Option BlockWeights) (rk : ℕ)
    (form : MatrixFormData) (hsf : |form.scaling_factor| < HermesSqrtEpsilon) :
    (∀ s : TraverseState, form_to_be_assembled_matrix_vol bw rk form s = false) ∧
    (∀ (force : Bool) (mv1 mv2 mfsurf mfDG : List MatrixFormData),
      get_blocks force (mv1 ++ form :: mv2) mfsurf mfDG =
        get_blocks force (mv1 ++ mv2) mfsurf mfDG) := by
  have hnot : ¬ |form.scaling_factor| > HermesSqrtEpsilon := not_lt_of_gt hsf
  constructor
  · intro s
    have hbase : form_to_be_assembled_matrix bw rk form s = false := by
      unfold form_to_be_assembled_matrix
      cases s.e.getD form.i none with
      | none => rfl
      | some e1 =>
          cases s.e.getD form.j none with
          | none => rfl
          | some e2 => rw [if_pos hsf]
    unfold form_to_be_assembled_matrix_vol
    rw [hbase]
    rfl
  · intro force mv1 mv2 mfsurf mfDG
    have hmv : ∀ b : BlockMatrix, markVol b form = b := by
      intro b
      unfold markVol markVolSnd markVolFst
      simp only [if_neg hnot, ite_self]
    unfold get_blocks
    rw [List.foldl_append, List.foldl_append, List.foldl_cons, hmv]

/-- Witness for C3 at a concrete zero-scaling form and traversal state. -/
theorem C3_zero_scaling_form_inert_witness :
    form_to_be_assembled_matrix_vol none 1
      ⟨0, 0, 0, 0, true, []⟩
      ⟨[some ⟨0, 4, 1, fun _ => false, fun _ => 0⟩],
        ⟨0, 4, 1, fun _ => false, fun _ => 0⟩, 0⟩ = false :=
  (C3_zero_scaling_form_inert none 1 ⟨0, 0, 0, 0, true, []⟩
    (by norm_num [HermesSqrtEpsilon])).1 _

/-! ## `prepare_sparse_structure` (claims C2, C6, C10) -/

/-- C10: `prepare_sparse_structure` always returns `true`; afterwards
`previous_mat` / `previous_rhs` hold the arguments just passed, and a non-null
matrix (resp. vector) argument leaves the corresponding structure-reusable
flag set. -/
theorem C10_prepare_state (st : AssemblerState) (mat rhs : Option ℕ)
    (inp : PrepareInput) :
    (prepare_sparse_structure st mat rhs inp).1 = true ∧
    (prepare_sparse_structure st mat rhs inp).2.1.previous_mat = mat ∧
    (prepare_sparse_structure st mat rhs inp).2.1.previous_rhs = rhs ∧
    (mat.isSome = true →
      (prepare_sparse_structure st mat rhs inp).2.1.matrix_structure_reusable = true) ∧
    (rhs.isSome = true →
      (prepare_sparse_structure st mat rhs inp).2.1.vector_structure_reusable = true) := by
  refine ⟨rfl, rfl, rfl, ?_, ?_⟩
  · intro hm
    show (st.matrix_structure_reusable ||
      decide ((¬ st.matrix_structure_reusable ∨ mat ≠ st.previous_mat) ∧ mat.isSome)) = true
    by_cases hr : st.matrix_structure_reusable = true
    · simp [hr]
    · simp only [Bool.or_eq_true, decide_eq_true_eq]
      exact Or.inr ⟨Or.inl (by simpa using hr), by simpa using hm⟩
  · intro hv
    show (st.vector_structure_reusable ||
      decide ((¬ st.vector_structure_reusable ∨ rhs ≠ st.previous_rhs) ∧ rhs.isSome)) = true
    by_cases hr : st.vector_structure_reusable = true
    · simp [hr]
    · simp only [Bool.or_eq_true, decide_eq_true_eq]
      exact Or.inr ⟨Or.inl (by simpa using hr), by simpa using hv⟩

/-- Witness for C10 at the initial assembler state and null arguments. -/
theorem C10_prepare_state_witness :
    (prepare_sparse_structure AssemblerState.initial (some 0) none
      ⟨0, 0, [], fun _ _ => [], fun _ _ => false, false, fun _ _ _ => [], 0⟩).1 = true :=
  (C10_prepare_state AssemblerState.initial (some 0) none
    ⟨0, 0, [], fun _ _ => [], fun _ _ => false, false, fun _ _ _ => [], 0⟩).1

/-- C2: with a reusable cached structure, calling with the same non-null
matrix object only zeroes it (no free / prealloc / position registration /
alloc); calling with a different matrix object, or after `set_spaces` saw a
changed space sequence identifier, runs the full rebuild. -/
theorem C2_prepare_reuse (st : AssemblerState) (m : ℕ) (rhs : Option ℕ)
    (inp inp2 : PrepareInput)
    (hreuse : st.matrix_structure_reusable = true)
    (hprev : st.previous_mat = some m) :
    ((prepare_sparse_structure st (some m) rhs inp).2.2.1 = [MatOp.zero]) ∧
    (∀ m' : ℕ, m' ≠ m →
      (prepare_sparse_structure st (some m') rhs inp).2.2.1 = rebuildOps inp) ∧
    (∀ old seqs : List ℤ, st.sp_seq = some old →
      (∃ i < st.spaces_size, seqs.getD i 0 ≠ old.getD i 0) →
      (prepare_sparse_structure (set_spaces st seqs) (some m) rhs inp2).2.2.1 =
        rebuildOps inp2) := by
  refine ⟨?_, ?_, ?_⟩
  · show (if st.matrix_structure_reusable ∧ (some m).isSome ∧ some m = st.previous_mat
        then [MatOp.zero] else []) ++
      (if decide ((¬ st.matrix_structure_reusable ∨ some m ≠ st.previous_mat) ∧
          (some m).isSome) then rebuildOps inp else []) = [MatOp.zero]
    rw [if_pos ⟨by simp [hreuse], by simp, hprev.symm⟩,
        if_neg (by simp [hreuse, hprev])]
    rfl
  · intro m' hm'
    show (if st.matrix_structure_reusable ∧ (some m').isSome ∧ some m' = st.previous_mat
        then [MatOp.zero] else []) ++
      (if decide ((¬ st.matrix_structure_reusable ∨ some m' ≠ st.previous_mat) ∧
          (some m').isSome) then rebuildOps inp else []) = rebuildOps inp
    rw [if_neg (by rw [hprev]; simp [hm']),
        if_pos (by rw [hprev]; simp [hm'])]
    rfl
  · intro old seqs hold hch
    have hchanged : (List.range st.spaces_size).any
        (fun i => decide (seqs.getD i 0 ≠ old.getD i 0)) = true := by
      rw [List.any_eq_true]
      obtain ⟨i, hi, hne⟩ := hch
      exact ⟨i, List.mem_range.mpr hi, by simpa using hne⟩
    have hst' : (set_spaces st seqs).matrix_structure_reusable = false := by
      simp only [set_spaces, hold]
      rw [hchanged]
      simp
    have hprev' : (set_spaces st seqs).previous_mat = st.previous_mat := by
      simp only [set_spaces, hold]
    have hneg : ¬((set_spaces st seqs).matrix_structure_reusable ∧
        (some m : Option ℕ).isSome ∧ some m = (set_spaces st seqs).previous_mat) := by
      rintro ⟨hflag, -, -⟩
      rw [hst'] at hflag
      cases hflag
    have hpos : ((¬ (set_spaces st seqs).matrix_structure_reusable ∨
        some m ≠ (set_spaces st seqs).previous_mat) ∧ (some m : Option ℕ).isSome) := by
      refine ⟨Or.inl ?_, by simp⟩
      rw [hst']
      simp
    show (if (set_spaces st seqs).matrix_structure_reusable ∧ (some m).isSome ∧
          some m = (set_spaces st seqs).previous_mat
        then [MatOp.zero] else []) ++
      (if decide ((¬ (set_spaces st seqs).matrix_structure_reusable ∨
          some m ≠ (set_spaces st seqs).previous_mat) ∧ (some m).isSome)
        then rebuildOps inp2 else []) = rebuildOps inp2
    rw [if_neg hneg, if_pos (decide_eq_true hpos)]
    rfl

/-- Witness for C2 at a concrete reusable state. -/
theorem C2_prepare_reuse_witness :
    (prepare_sparse_structure ⟨some [5], 1, true, some 7, true, none⟩ (some 7) none
      ⟨3, 1, [], fun _ _ => [], fun _ _ => false, false, fun _ _ _ => [], 0⟩).2.2.1 =
      [MatOp.zero] :=
  (C2_prepare_reuse ⟨some [5], 1, true, some 7, true, none⟩ 7 none
    ⟨3, 1, [], fun _ _ => [], fun _ _ => false, false, fun _ _ _ => [], 0⟩
    ⟨3, 1, [], fun _ _ => [], fun _ _ => false, false, fun _ _ _ => [], 0⟩
    rfl rfl).1

theorem mem_dgPreAdds_nonneg {inp : PrepareInput} {s : TraverseState} {r c : ℤ}
    (h : MatOp.pre_add_ij r c ∈ dgPreAdds inp s) : 0 ≤ r ∧ 0 ≤ c := by
  unfold dgPreAdds at h
  cases he0 : s.e.getD 0 none with
  | none => simp only [he0] at h; exact absurd h (List.not_mem_nil _)
  | some e0 =>
      simp only [he0] at h
      simp only [List.mem_flatMap, List.mem_range] at h
      obtain ⟨m, -, el, -, ed, -, h⟩ := h
      cases heel : s.e.getD el none with
      | none => simp only [heel] at h; exact absurd h (List.not_mem_nil _)
      | some eel =>
          simp only [heel] at h
          by_cases hbnd : eel.enBnd ed = true
          · rw [if_pos hbnd] at h
            exact absurd h (List.not_mem_nil _)
          · rw [if_neg hbnd] at h
            obtain ⟨neigh, -, h⟩ := List.mem_flatMap.mp h
            by_cases hblk : ((inp.blocks m el || inp.blocks el m) &&
                (s.e.getD m none).isSome) = true
            · rw [if_pos hblk] at h
              cases hm : s.e.getD m none with
              | none => simp only [hm] at h; exact absurd h (List.not_mem_nil _)
              | some em =>
                  simp only [hm] at h
                  obtain ⟨di, -, h⟩ := List.mem_flatMap.mp h
                  by_cases hdi : di ≥ 0
                  · rw [if_pos hdi] at h
                    obtain ⟨dj, -, h⟩ := List.mem_flatMap.mp h
                    by_cases hdj : dj ≥ 0
                    · rw [if_pos hdj] at h
                      rcases List.mem_append.mp h with h1 | h1
                      · by_cases hb : inp.blocks m el = true
                        · rw [if_pos hb] at h1
                          simp only [List.mem_singleton] at h1
                          cases h1
                          exact ⟨hdi, hdj⟩
                        · rw [if_neg hb] at h1
                          exact absurd h1 (List.not_mem_nil _)
                      · by_cases hb : inp.blocks el m = true
                        · rw [if_pos hb] at h1
                          simp only [List.mem_singleton] at h1
                          cases h1
                          exact ⟨hdj, hdi⟩
                        · rw [if_neg hb] at h1
                          exact absurd h1 (List.not_mem_nil _)
                    · rw [if_neg hdj] at h
                      exact absurd h (List.not_mem_nil _)
                  · rw [if_neg hdi] at h
                    exact absurd h (List.not_mem_nil _)
            · rw [if_neg hblk] at h
              exact absurd h (List.not_mem_nil _)

theorem mem_blockPreAdds_nonneg {inp : PrepareInput} {s : TraverseState} {r c : ℤ}
    (h : MatOp.pre_add_ij r c ∈ blockPreAdds inp s) : 0 ≤ r ∧ 0 ≤ c := by
  unfold blockPreAdds at h
  simp only [List.mem_flatMap, List.mem_range] at h
  obtain ⟨m, -, n, -, h⟩ := h
  split at h
  · split at h
    · simp only [List.mem_flatMap] at h
      obtain ⟨di, -, h⟩ := h
      split at h
      · simp only [List.mem_flatMap] at h
        obtain ⟨dj, -, h⟩ := h
        split at h
        · simp only [List.mem_singleton] at h
          cases h
          constructor <;> assumption
        · exact absurd h (List.not_mem_nil _)
      · exact absurd h (List.not_mem_nil _)
    · exact absurd h (List.not_mem_nil _)
  · exact absurd h (List.not_mem_nil _)

/-- C6: during the structure pass, every registered nonzero position has a
nonnegative row index and a nonnegative column index, in the intra-element
block loops as well as in the DG cross-element loops: constrained/boundary
sentinel DOFs (negative) are always skipped. -/
theorem C6_pre_add_ij_nonneg (st : AssemblerState) (mat rhs : Option ℕ)
    (inp : PrepareInput) (r c : ℤ)
    (h : MatOp.pre_add_ij r c ∈ (prepare_sparse_structure st mat rhs inp).2.2.1) :
    0 ≤ r ∧ 0 ≤ c := by
  simp only [prepare_sparse_structure] at h
  rcases List.mem_append.mp h with h1 | h1
  · split at h1 <;> simp at h1
  · split at h1
    · unfold rebuildOps at h1
      rcases List.mem_append.mp h1 with h2 | h2
      · rcases List.mem_append.mp h2 with h3 | h3
        · simp at h3
        · simp only [List.mem_flatMap] at h3
          obtain ⟨s, _, h3⟩ := h3
          rcases List.mem_append.mp h3 with h4 | h4
          · split at h4
            · exact mem_dgPreAdds_nonneg h4
            · simp at h4
          · exact mem_blockPreAdds_nonneg h4
      · simp at h2
    · simp at h1

/-- Witness for C6 at a concrete single-space, single-state input. -/
theorem C6_pre_add_ij_nonneg_witness :
    0 ≤ (2 : ℤ) ∧ 0 ≤ (3 : ℤ) :=
  C6_pre_add_ij_nonneg AssemblerState.initial (some 0) none
    ⟨4, 1, [⟨[some ⟨0, 4, 1, fun _ => false, fun _ => 0⟩],
        ⟨0, 4, 1, fun _ => false, fun _ => 0⟩, 0⟩],
      fun _ _ => [2, -1, 3], fun _ _ => true, false, fun _ _ _ => [], 0⟩ 2 3
    (by
      refine List.mem_append.mpr (Or.inr ?_)
      rw [if_pos (by simp [AssemblerState.initial])]
      unfold rebuildOps
      refine List.mem_append.mpr (Or.inl (List.mem_append.mpr (Or.inr ?_)))
      simp only [List.mem_flatMap]
      refine ⟨_, List.mem_cons_self _ _, ?_⟩
      refine List.mem_append.mpr (Or.inr ?_)
      unfold blockPreAdds
      simp only [List.mem_flatMap, List.mem_range]
      refine ⟨0, by norm_num, 0, by norm_num, ?_⟩
      rw [if_pos (by simp)]
      simp)

/-! ## `assign_edge_dofs` (claim C4) -/

/-- C4: in the edge pass, for an active element of order at least 1 and a
not-yet-numbered edge node: if the node is unconstrained (multiply
referenced, on the boundary, or with an unrefined neighboring mid-edge
vertex) and its boundary marker carries an essential boundary condition, it
receives the constrained sentinel and the DOF counter does not advance; if it
is unconstrained without such a boundary condition, it receives the block of
`edge order − 1` consecutive DOFs starting at the current counter, which
advances by that amount; otherwise it is marked `n = −1` and receives no
DOF. -/
theorem C4_assign_edge_dofs_step (bcs : Option MarkerCache)
    (umk : ℤ → String) (it : EdgeItem) (st : H1EdgeState)
    (horder : 1 ≤ it.elemOrder)
    (hunnum : st.ndata_dof it.en.nodeId = H2D_UNASSIGNED_DOF) :
    ((it.en.ref > 1 ∨ it.en.bnd = true ∨ it.en.hasMidVertex = true) →
      (((it.en.bnd = true ∧ ∃ mc, bcs = some mc ∧
            (get_boundary_condition mc (umk it.en.marker)).isSome = true) →
        ((assign_edge_dofs_step bcs umk it st).ndata_dof it.en.nodeId =
            H2D_CONSTRAINED_DOF ∧
          (assign_edge_dofs_step bcs umk it st).ndata_n it.en.nodeId =
            it.edgeOrder - 1 ∧
          (assign_edge_dofs_step bcs umk it st).next_dof = st.next_dof))
      ∧ (¬(it.en.bnd = true ∧ ∃ mc, bcs = some mc ∧
            (get_boundary_condition mc (umk it.en.marker)).isSome = true) →
        ((assign_edge_dofs_step bcs umk it st).ndata_dof it.en.nodeId =
            st.next_dof ∧
          (assign_edge_dofs_step bcs umk it st).ndata_n it.en.nodeId =
            it.edgeOrder - 1 ∧
          (assign_edge_dofs_step bcs umk it st).next_dof =
            st.next_dof + (it.edgeOrder - 1)))))
    ∧ (¬(it.en.ref > 1 ∨ it.en.bnd = true ∨ it.en.hasMidVertex = true) →
        ((assign_edge_dofs_step bcs umk it st).ndata_n it.en.nodeId = -1 ∧
          (assign_edge_dofs_step bcs umk it st).ndata_dof it.en.nodeId =
            st.ndata_dof it.en.nodeId ∧
          (assign_edge_dofs_step bcs umk it st).next_dof = st.next_dof)) := by
  have hno : ¬ it.elemOrder ≤ 0 := by omega
  have hnd : ¬ st.ndata_dof it.en.nodeId ≠ H2D_UNASSIGNED_DOF := by
    simpa using hunnum
  cases bcs with
  | none =>
      refine ⟨fun huncon => ⟨?_, ?_⟩, fun hcon => ?_⟩
      · rintro ⟨-, mc, hmc, -⟩
        cases hmc
      · intro hbc
        unfold assign_edge_dofs_step
        rw [if_neg hno, if_neg hnd, if_pos huncon, if_neg (by simp)]
        exact ⟨by simp, by simp, rfl⟩
      · unfold assign_edge_dofs_step
        rw [if_neg hno, if_neg hnd, if_neg hcon]
        exact ⟨by simp, by simp, rfl⟩
  | some mc =>
      refine ⟨fun huncon => ⟨?_, ?_⟩, fun hcon => ?_⟩
      · rintro ⟨hbnd, mc2, hmc2, hbc⟩
        cases hmc2
        unfold assign_edge_dofs_step
        rw [if_neg hno, if_neg hnd, if_pos huncon,
          if_pos (show (it.en.bnd &&
            (get_boundary_condition mc (umk it.en.marker)).isSome) = true by
              rw [hbnd, hbc]
              rfl)]
        exact ⟨by simp, by simp, rfl⟩
      · intro hbc
        unfold assign_edge_dofs_step
        rw [if_neg hno, if_neg hnd, if_pos huncon,
          if_neg (show ¬ ((it.en.bnd &&
            (get_boundary_condition mc (umk it.en.marker)).isSome) = true) by
              intro hcontra
              simp only [Bool.and_eq_true] at hcontra
              exact hbc ⟨hcontra.1, mc, rfl, hcontra.2⟩)]
        exact ⟨by simp, by simp, rfl⟩
      · unfold assign_edge_dofs_step
        rw [if_neg hno, if_neg hnd, if_neg hcon]
        exact ⟨by simp, by simp, rfl⟩

/-- Witness for C4 at a concrete boundary edge with an essential BC. -/
theorem C4_assign_edge_dofs_step_witness :
    (assign_edge_dofs_step (some ⟨none, [("a", ⟨0, ["a"]⟩)]⟩) (fun _ => "a")
        ⟨1, 2, ⟨5, 1, true, false, 3⟩⟩
        ⟨fun _ => H2D_UNASSIGNED_DOF, fun _ => 0, 10, 0⟩).ndata_dof 5 =
      H2D_CONSTRAINED_DOF :=
  (((C4_assign_edge_dofs_step (some ⟨none, [("a", ⟨0, ["a"]⟩)]⟩) (fun _ => "a")
      ⟨1, 2, ⟨5, 1, true, false, 3⟩⟩
      ⟨fun _ => H2D_UNASSIGNED_DOF, fun _ => 0, 10, 0⟩
      (by norm_num) rfl).1 (by simp)).1
    ⟨rfl, ⟨none, [("a", ⟨0, ["a"]⟩)]⟩, rfl, rfl⟩).1

/-! ## The Newton loop of `rk_time_step` (claim C8) -/

theorem newtonRest_true_iff (res : ℕ → ℚ) (tol ma : ℚ) (mi : ℤ) :
    ∀ k : ℕ, 2 ≤ k →
      (newtonRest res tol ma mi k = true ↔
        ∃ j : ℕ, k ≤ j ∧ (j : ℤ) < mi ∧ res j < tol ∧
          (∀ i : ℕ, k ≤ i → i ≤ j → res i ≤ ma) ∧
          (∀ i : ℕ, k ≤ i → i < j → ¬ res i < tol)) := by
  have main : ∀ (n k : ℕ), (mi + 2).toNat ≤ k + n → 2 ≤ k →
      (newtonRest res tol ma mi k = true ↔
        ∃ j : ℕ, k ≤ j ∧ (j : ℤ) < mi ∧ res j < tol ∧
          (∀ i : ℕ, k ≤ i → i ≤ j → res i ≤ ma) ∧
          (∀ i : ℕ, k ≤ i → i < j → ¬ res i < tol)) := by
    intro n
    induction n with
    | zero =>
        intro k hk hk2
        have hbudget : (k : ℤ) > mi := by omega
        rw [newtonRest]
        by_cases h1 : res k > ma
        · rw [if_pos h1]
          constructor
          · intro hcontra; cases hcontra
          · rintro ⟨j, hkj, hjmi, -, hma, -⟩
            exact absurd (hma k le_rfl hkj) (not_le_of_gt h1)
        · rw [if_neg h1, dif_pos (Or.inr hbudget)]
          simp only [decide_eq_true_eq]
          constructor
          · intro hlt
            omega
          · rintro ⟨j, hkj, hjmi, -⟩
            omega
    | succ n ih =>
        intro k hk hk2
        rw [newtonRest]
        by_cases h1 : res k > ma
        · rw [if_pos h1]
          constructor
          · intro hcontra; cases hcontra
          · rintro ⟨j, hkj, hjmi, -, hma, -⟩
            exact absurd (hma k le_rfl hkj) (not_le_of_gt h1)
        · rw [if_neg h1]
          by_cases h2 : res k < tol ∨ (k : ℤ) > mi
          · rw [dif_pos h2]
            simp only [decide_eq_true_eq]
            constructor
            · intro hlt
              have htol : res k < tol := by
                rcases h2 with h2 | h2
                · exact h2
                · omega
              exact ⟨k, le_rfl, hlt, htol,
                fun i hik hik2 => by
                  have : i = k := le_antisymm hik2 hik
                  rw [this]; exact le_of_not_gt h1,
                fun i hik hik2 => by omega⟩
            · rintro ⟨j, hkj, hjmi, hjtol, -, hfirst⟩
              rcases h2 with h2 | h2
              · by_cases hjk : j = k
                · omega
                · exact absurd h2 (hfirst k le_rfl (by omega))
              · omega
          · rw [dif_neg h2]
            push_neg at h2
            obtain ⟨htol, hbud⟩ := h2
            rw [ih (k + 1) (by omega) (by omega)]
            constructor
            · rintro ⟨j, hkj, hjmi, hjtol, hma, hfirst⟩
              refine ⟨j, by omega, hjmi, hjtol, ?_, ?_⟩
              · intro i hik hij
                by_cases hikk : i = k
                · rw [hikk]; exact le_of_not_gt h1
                · exact hma i (by omega) hij
              · intro i hik hij
                by_cases hikk : i = k
                · rw [hikk]; exact not_lt_of_ge (by exact_mod_cast le_of_not_gt (by simpa using htol))
                · exact hfirst i (by omega) hij
            · rintro ⟨j, hkj, hjmi, hjtol, hma, hfirst⟩
              have hjk : j ≠ k := by
                intro hcontra
                rw [hcontra] at hjtol
                exact absurd hjtol (by simpa using htol)
              refine ⟨j, by omega, hjmi, hjtol, ?_, ?_⟩
              · intro i hik hij
                exact hma i (by omega) hij
              · intro i hik hij
                exact hfirst i (by omega) hij
  intro k hk2
  exact main ((mi + 2).toNat) k (by omega) hk2

/-- C8 (amended): the Newton loop of `rk_time_step` returns `true` exactly
when the first residual norm does not exceed the allowed maximum and, for a
linear problem, `newton_max_iter` exceeds 1, or, for a nonlinear problem, the
first iteration `j ≥ 2` whose residual norm drops below `newton_tol` comes
while the counter is still strictly below `newton_max_iter`, with no earlier
residual above the allowed maximum.  In particular a run whose residual
first drops below the tolerance exactly at iteration `newton_max_iter` (or a
linear problem with `newton_max_iter ≤ 1`) still returns `false`. -/
theorem C8_rk_newton_characterization (res : ℕ → ℚ) (lin : Bool)
    (tol ma : ℚ) (mi : ℤ) :
    rk_newton res lin tol ma mi = true ↔
      (¬ res 1 > ma ∧
        (if lin = true then (1 : ℤ) < mi
         else ∃ j : ℕ, 2 ≤ j ∧ (j : ℤ) < mi ∧ res j < tol ∧
            (∀ i : ℕ, 2 ≤ i → i ≤ j → res i ≤ ma) ∧
            (∀ i : ℕ, 2 ≤ i → i < j → ¬ res i < tol))) := by
  unfold rk_newton
  by_cases h1 : res 1 > ma
  · rw [if_pos h1]
    simp [h1]
  · rw [if_neg h1]
    cases lin with
    | true =>
        rw [if_pos rfl]
        simp [h1]
    | false =>
        rw [if_neg (by simp), newtonRest_true_iff res tol ma mi 2 le_rfl]
        simp [h1]

/-- C8 counterexample to the claim as stated: with constant residual `0`,
tolerance `1`, allowed maximum `10` and iteration budget `newton_max_iter
= 2`, the loop converges (residual `0 < 1` at iteration `2`, within the
budget and below the allowed maximum) yet `rk_time_step` returns `false`,
because of the final `it >= newton_max_iter` check. -/
theorem C8_counterexample :
    rk_newton (fun _ => 0) false 1 10 2 = false ∧
      (fun _ => (0 : ℚ)) 2 < 1 ∧ ((2 : ℕ) : ℤ) ≤ 2 ∧
      (∀ i : ℕ, (fun _ => (0 : ℚ)) i ≤ 10) := by
  refine ⟨?_, by norm_num, by norm_num, fun i => by norm_num⟩
  rw [rk_newton, if_neg (by norm_num), if_neg (by simp)]
  rw [newtonRest, if_neg (by norm_num), dif_pos (Or.inl (by norm_num))]
  simp

/-! ## The baselist merge (claims C1, C7): functional layer -/

theorem mergeSeq_nil_right (l : List BaseComponent) : mergeSeq l [] = l := by
  cases l <;> simp [mergeSeq]

theorem mergeSeq_nil_left (l : List BaseComponent) : mergeSeq [] l = l := by
  cases l <;> simp [mergeSeq]

theorem mergeSeq_cons_cons (x y : BaseComponent) (xs ys : List BaseComponent) :
    mergeSeq (x :: xs) (y :: ys) =
      if x.dof < y.dof then x :: mergeSeq xs (y :: ys)
      else y :: mergeSeq (x :: xs) ys := by
  rw [mergeSeq]

theorem mergeSeq_perm (l1 : List BaseComponent) :
    ∀ l2, (mergeSeq l1 l2).Perm (l1 ++ l2) := by
  induction l1 with
  | nil =>
      intro l2
      rw [mergeSeq_nil_left, List.nil_append]
  | cons x xs ihx =>
      intro l2
      induction l2 with
      | nil => rw [mergeSeq_nil_right, List.append_nil]
      | cons y ys ihy =>
          rw [mergeSeq_cons_cons]
          by_cases hxy : x.dof < y.dof
          · rw [if_pos hxy]
            exact (ihx (y :: ys)).cons x
          · rw [if_neg hxy]
            exact (ihy.cons y).trans List.perm_middle.symm

theorem mergeSeq_length (l1 l2 : List BaseComponent) :
    (mergeSeq l1 l2).length = l1.length + l2.length := by
  have := (mergeSeq_perm l1 l2).length_eq
  simpa using this

theorem mem_mergeSeq {z : BaseComponent} {l1 l2 : List BaseComponent} :
    z ∈ mergeSeq l1 l2 ↔ z ∈ l1 ∨ z ∈ l2 := by
  rw [(mergeSeq_perm l1 l2).mem_iff, List.mem_append]

theorem mergeSeq_coefSum (l1 l2 : List BaseComponent) :
    coefSum (mergeSeq l1 l2) = coefSum l1 + coefSum l2 := by
  unfold coefSum
  rw [((mergeSeq_perm l1 l2).map BaseComponent.coef).sum_eq]
  simp

theorem mergeSeq_eq_nil_iff {l1 l2 : List BaseComponent} :
    mergeSeq l1 l2 = [] ↔ l1 = [] ∧ l2 = [] := by
  constructor
  · intro h
    have := mergeSeq_length l1 l2
    rw [h] at this
    simp only [List.length_nil] at this
    exact ⟨List.length_eq_zero.mp (by omega), List.length_eq_zero.mp (by omega)⟩
  · rintro ⟨rfl, rfl⟩
    rw [mergeSeq_nil_left]

theorem mergeSeq_cons_left {x : BaseComponent} {xs ys : List BaseComponent}
    (h : ∀ y ∈ ys, x.dof < y.dof) :
    mergeSeq (x :: xs) ys = x :: mergeSeq xs ys := by
  cases ys with
  | nil =>
      rw [mergeSeq_nil_right]
      rw [mergeSeq_nil_right]
  | cons y ys =>
      rw [mergeSeq_cons_cons, if_pos (h y (List.mem_cons_self _ _))]

theorem outRun_ne {c x : BaseComponent} {xs : List BaseComponent}
    (h : x.dof ≠ c.dof) : outRun c (x :: xs) = c :: outRun (half x) xs := by
  rw [outRun, if_neg h]

theorem outRun_eq {c x : BaseComponent} {xs : List BaseComponent}
    (h : x.dof = c.dof) :
    outRun c (x :: xs) = outRun ⟨c.dof, c.coef + x.coef * (1 / 2)⟩ xs := by
  rw [outRun, if_pos h]

theorem outRun_length_pos (c : BaseComponent) (s : List BaseComponent) :
    0 < (outRun c s).length := by
  induction s generalizing c with
  | nil => simp [outRun]
  | cons x xs ih =>
      rw [outRun]
      split
      · exact ih _
      · simp only [List.length_cons]
        omega

theorem outRun_length_le (c : BaseComponent) (s : List BaseComponent) :
    (outRun c s).length ≤ s.length + 1 := by
  induction s generalizing c with
  | nil => simp [outRun]
  | cons x xs ih =>
      rw [outRun]
      split
      · have := ih ⟨c.dof, c.coef + x.coef * (1 / 2)⟩
        simp only [List.length_cons]
        omega
      · simp only [List.length_cons]
        have := ih (half x)
        omega

theorem outList_length_le (s : List BaseComponent) :
    (outList s).length ≤ s.length := by
  cases s with
  | nil => simp [outList]
  | cons x xs =>
      rw [outList]
      exact outRun_length_le (half x) xs

theorem outRun_dof_subset {z : BaseComponent} {c : BaseComponent}
    {s : List BaseComponent} (h : z ∈ outRun c s) :
    z.dof = c.dof ∨ ∃ y ∈ s, z.dof = y.dof := by
  induction s generalizing c with
  | nil =>
      simp only [outRun, List.mem_singleton] at h
      exact Or.inl (by rw [h])
  | cons x xs ih =>
      rw [outRun] at h
      split at h
      · rcases ih h with h1 | ⟨y, hy, hz⟩
        · exact Or.inl h1
        · exact Or.inr ⟨y, List.mem_cons_of_mem _ hy, hz⟩
      · rcases List.mem_cons.mp h with rfl | h1
        · exact Or.inl rfl
        · rcases ih h1 with h2 | ⟨y, hy, hz⟩
          · exact Or.inr ⟨x, List.mem_cons_self _ _, h2⟩
          · exact Or.inr ⟨y, List.mem_cons_of_mem _ hy, hz⟩

theorem outList_dof_subset {z : BaseComponent} {s : List BaseComponent}
    (h : z ∈ outList s) : ∃ y ∈ s, z.dof = y.dof := by
  cases s with
  | nil => simp [outList] at h
  | cons x xs =>
      rw [outList] at h
      rcases outRun_dof_subset h with h1 | ⟨y, hy, hz⟩
      · exact ⟨x, List.mem_cons_self _ _, h1⟩
      · exact ⟨y, List.mem_cons_of_mem _ hy, hz⟩

theorem outRun_sorted_map {c : BaseComponent} {s : List BaseComponent}
    (hs : sortedByDof s) (hall : ∀ x ∈ s, c.dof < x.dof) :
    outRun c s = c :: s.map half := by
  induction s generalizing c with
  | nil => simp [outRun]
  | cons x xs ih =>
      have hne : x.dof ≠ c.dof := by
        intro hcontra
        have := hall x (List.mem_cons_self _ _)
        rw [hcontra] at this
        exact lt_irrefl _ this
      rw [outRun_ne hne]
      unfold sortedByDof at hs
      rw [List.pairwise_cons] at hs
      rw [ih (c := half x) hs.2 (fun y hy => hs.1 y hy)]
      rfl

theorem outList_sorted_map {s : List BaseComponent} (hs : sortedByDof s) :
    outList s = s.map half := by
  cases s with
  | nil => rfl
  | cons x xs =>
      rw [outList]
      unfold sortedByDof at hs
      rw [List.pairwise_cons] at hs
      rw [outRun_sorted_map (c := half x) hs.2 (fun y hy => hs.1 y hy)]
      rfl

theorem halfMergePair_nil_right (l : List BaseComponent) :
    halfMergePair l [] = l.map half := by
  cases l <;> simp [halfMergePair]

theorem halfMergePair_nil_left (l : List BaseComponent) :
    halfMergePair [] l = l.map half := by
  cases l <;> simp [halfMergePair]

theorem halfMergePair_cons_cons (x y : BaseComponent) (xs ys : List BaseComponent) :
    halfMergePair (x :: xs) (y :: ys) =
      if x.dof < y.dof then half x :: halfMergePair xs (y :: ys)
      else if y.dof < x.dof then half y :: halfMergePair (x :: xs) ys
      else ⟨x.dof, y.coef * (1 / 2) + x.coef * (1 / 2)⟩ :: halfMergePair xs ys := by
  rw [halfMergePair]

theorem sortedByDof_cons {x : BaseComponent} {xs : List BaseComponent}
    (h : sortedByDof (x :: xs)) :
    (∀ y ∈ xs, x.dof < y.dof) ∧ sortedByDof xs := by
  unfold sortedByDof at h ⊢
  rw [List.pairwise_cons] at h
  exact h

/-- The consumption order of the merge loop, post-processed by the chain of
`output_component` calls, computes exactly the two-list half-coefficient
merge, for sorted inputs. -/
theorem outList_mergeSeq : ∀ (n : ℕ) (l1 l2 : List BaseComponent),
    l1.length + l2.length ≤ n → sortedByDof l1 → sortedByDof l2 →
    outList (mergeSeq l1 l2) = halfMergePair l1 l2 := by
  intro n
  induction n with
  | zero =>
      intro l1 l2 hlen h1 h2
      have hl1 : l1 = [] := List.length_eq_zero.mp (by omega)
      have hl2 : l2 = [] := List.length_eq_zero.mp (by omega)
      subst hl1; subst hl2
      rw [mergeSeq_nil_left, halfMergePair_nil_left]
      rfl
  | succ n ih =>
      intro l1 l2 hlen h1 h2
      cases l1 with
      | nil =>
          rw [mergeSeq_nil_left, outList_sorted_map h2, halfMergePair_nil_left]
      | cons x xs =>
          cases l2 with
          | nil =>
              rw [mergeSeq_nil_right, outList_sorted_map h1, halfMergePair_nil_right]
          | cons y ys =>
              obtain ⟨hx_all, hxs⟩ := sortedByDof_cons h1
              obtain ⟨hy_all, hys⟩ := sortedByDof_cons h2
              simp only [List.length_cons] at hlen
              rcases lt_trichotomy x.dof y.dof with hxy | hxy | hxy
              · rw [mergeSeq_cons_cons, if_pos hxy,
                    halfMergePair_cons_cons, if_pos hxy]
                cases hs : mergeSeq xs (y :: ys) with
                | nil =>
                    obtain ⟨-, hcontra⟩ := mergeSeq_eq_nil_iff.mp hs
                    cases hcontra
                | cons z s' =>
                    have hz : x.dof < z.dof := by
                      have hzm : z ∈ mergeSeq xs (y :: ys) := by
                        rw [hs]; exact List.mem_cons_self _ _
                      rcases mem_mergeSeq.mp hzm with hz1 | hz1
                      · exact hx_all z hz1
                      · rcases List.mem_cons.mp hz1 with rfl | hz2
                        · exact hxy
                        · exact hxy.trans (hy_all z hz2)
                    rw [outList, outRun_ne (by
                      intro hcontra
                      rw [show (half x).dof = x.dof from rfl] at hcontra
                      rw [hcontra] at hz
                      exact lt_irrefl _ hz)]
                    have : outRun (half z) s' = outList (mergeSeq xs (y :: ys)) := by
                      rw [hs, outList]
                    rw [this, ih xs (y :: ys) (by simp; omega) hxs h2]
              · rw [mergeSeq_cons_cons,
                    if_neg (by rw [hxy]; exact lt_irrefl _),
                    mergeSeq_cons_left (fun y' hy' => hxy ▸ hy_all y' hy'),
                    halfMergePair_cons_cons,
                    if_neg (by rw [hxy]; exact lt_irrefl _),
                    if_neg (by rw [hxy]; exact lt_irrefl _)]
                rw [outList, outRun_eq (show x.dof = (half y).dof from hxy)]
                have hc : (⟨(half y).dof, (half y).coef + x.coef * (1 / 2)⟩ :
                    BaseComponent) = ⟨x.dof, y.coef * (1 / 2) + x.coef * (1 / 2)⟩ := by
                  simp [half, hxy]
                rw [hc]
                cases hs : mergeSeq xs ys with
                | nil =>
                    obtain ⟨hx0, hy0⟩ := mergeSeq_eq_nil_iff.mp hs
                    subst hx0; subst hy0
                    rw [outRun, halfMergePair_nil_left]
                    rfl
                | cons z s' =>
                    have hz : x.dof < z.dof := by
                      have hzm : z ∈ mergeSeq xs ys := by
                        rw [hs]; exact List.mem_cons_self _ _
                      rcases mem_mergeSeq.mp hzm with hz1 | hz1
                      · exact hx_all z hz1
                      · exact hxy ▸ hy_all z hz1
                    rw [outRun_ne (by
                      intro hcontra
                      rw [show ((⟨x.dof, y.coef * (1 / 2) + x.coef * (1 / 2)⟩ :
                        BaseComponent)).dof = x.dof from rfl] at hcontra
                      rw [hcontra] at hz
                      exact lt_irrefl _ hz)]
                    have : outRun (half z) s' = outList (mergeSeq xs ys) := by
                      rw [hs, outList]
                    rw [this, ih xs ys (by omega) hxs hys]
              · rw [mergeSeq_cons_cons, if_neg (by omega),
                    halfMergePair_cons_cons, if_neg (by omega), if_pos hxy]
                cases hs : mergeSeq (x :: xs) ys with
                | nil =>
                    obtain ⟨hcontra, -⟩ := mergeSeq_eq_nil_iff.mp hs
                    cases hcontra
                | cons z s' =>
                    have hz : y.dof < z.dof := by
                      have hzm : z ∈ mergeSeq (x :: xs) ys := by
                        rw [hs]; exact List.mem_cons_self _ _
                      rcases mem_mergeSeq.mp hzm with hz1 | hz1
                      · rcases List.mem_cons.mp hz1 with rfl | hz2
                        · exact hxy
                        · exact hxy.trans (hx_all z hz2)
                      · exact hy_all z hz1
                    rw [outList, outRun_ne (by
                      intro hcontra
                      rw [show (half y).dof = y.dof from rfl] at hcontra
                      rw [hcontra] at hz
                      exact lt_irrefl _ hz)]
                    have : outRun (half z) s' = outList (mergeSeq (x :: xs) ys) := by
                      rw [hs, outList]
                    rw [this, ih (x :: xs) ys (by simp; omega) h1 hys]

theorem coefSum_nil : coefSum [] = 0 := rfl

theorem coefSum_cons (x : BaseComponent) (l : List BaseComponent) :
    coefSum (x :: l) = x.coef + coefSum l := by
  simp [coefSum]

theorem coefSum_append (l1 l2 : List BaseComponent) :
    coefSum (l1 ++ l2) = coefSum l1 + coefSum l2 := by
  simp [coefSum]

theorem coefSum_map_half (l : List BaseComponent) :
    coefSum (l.map half) = coefSum l * (1 / 2) := by
  induction l with
  | nil => simp [coefSum]
  | cons x xs ih =>
      rw [List.map_cons, coefSum_cons, coefSum_cons, ih]
      show x.coef * (1 / 2) + coefSum xs * (1 / 2) = (x.coef + coefSum xs) * (1 / 2)
      ring

theorem halfMergePair_coefSum : ∀ (n : ℕ) (l1 l2 : List BaseComponent),
    l1.length + l2.length ≤ n →
    coefSum (halfMergePair l1 l2) = (coefSum l1 + coefSum l2) * (1 / 2) := by
  intro n
  induction n with
  | zero =>
      intro l1 l2 hlen
      have hl1 : l1 = [] := List.length_eq_zero.mp (by omega)
      have hl2 : l2 = [] := List.length_eq_zero.mp (by omega)
      subst hl1; subst hl2
      simp [halfMergePair_nil_left, coefSum]
  | succ n ih =>
      intro l1 l2 hlen
      cases l1 with
      | nil =>
          rw [halfMergePair_nil_left, coefSum_map_half, coefSum_nil]
          ring
      | cons x xs =>
          cases l2 with
          | nil =>
              rw [halfMergePair_nil_right, coefSum_map_half, coefSum_nil]
              ring
          | cons y ys =>
              simp only [List.length_cons] at hlen
              rw [halfMergePair_cons_cons]
              rcases lt_trichotomy x.dof y.dof with hxy | hxy | hxy
              · rw [if_pos hxy, coefSum_cons,
                  ih xs (y :: ys) (by simp; omega)]
                rw [coefSum_cons, coefSum_cons]
                show x.coef * (1 / 2) + (coefSum xs + (y.coef + coefSum ys)) * (1 / 2) = _
                ring
              · rw [if_neg (by rw [hxy]; exact lt_irrefl _),
                  if_neg (by rw [hxy]; exact lt_irrefl _), coefSum_cons,
                  ih xs ys (by omega)]
                rw [coefSum_cons, coefSum_cons]
                show y.coef * (1 / 2) + x.coef * (1 / 2) + (coefSum xs + coefSum ys) * (1 / 2) = _
                ring
              · rw [if_neg (by omega), if_pos hxy, coefSum_cons,
                  ih (x :: xs) ys (by simp; omega)]
                rw [coefSum_cons, coefSum_cons]
                show y.coef * (1 / 2) + ((x.coef + coefSum xs) + coefSum ys) * (1 / 2) = _
                ring

theorem halfMergePair_length : ∀ (n : ℕ) (l1 l2 : List BaseComponent),
    l1.length + l2.length ≤ n →
    (halfMergePair l1 l2).length ≤ l1.length + l2.length := by
  intro n
  induction n with
  | zero =>
      intro l1 l2 hlen
      have hl1 : l1 = [] := List.length_eq_zero.mp (by omega)
      have hl2 : l2 = [] := List.length_eq_zero.mp (by omega)
      subst hl1; subst hl2
      simp [halfMergePair_nil_left]
  | succ n ih =>
      intro l1 l2 hlen
      cases l1 with
      | nil => simp [halfMergePair_nil_left]
      | cons x xs =>
          cases l2 with
          | nil => simp [halfMergePair_nil_right]
          | cons y ys =>
              simp only [List.length_cons] at hlen ⊢
              rw [halfMergePair_cons_cons]
              rcases lt_trichotomy x.dof y.dof with hxy | hxy | hxy
              · rw [if_pos hxy]
                have := ih xs (y :: ys) (by simp; omega)
                simp only [List.length_cons] at this ⊢
                omega
              · rw [if_neg (by rw [hxy]; exact lt_irrefl _),
                  if_neg (by rw [hxy]; exact lt_irrefl _)]
                have := ih xs ys (by omega)
                simp only [List.length_cons]
                omega
              · rw [if_neg (by omega), if_pos hxy]
                have := ih (x :: xs) ys (by simp; omega)
                simp only [List.length_cons] at this ⊢
                omega

theorem halfMergePair_dof_subset : ∀ (n : ℕ) (l1 l2 : List BaseComponent),
    l1.length + l2.length ≤ n →
    ∀ z ∈ halfMergePair l1 l2,
      (∃ a ∈ l1, z.dof = a.dof) ∨ (∃ b ∈ l2, z.dof = b.dof) := by
  intro n
  induction n with
  | zero =>
      intro l1 l2 hlen
      have hl1 : l1 = [] := List.length_eq_zero.mp (by omega)
      have hl2 : l2 = [] := List.length_eq_zero.mp (by omega)
      subst hl1; subst hl2
      simp [halfMergePair_nil_left]
  | succ n ih =>
      intro l1 l2 hlen z hz
      cases l1 with
      | nil =>
          rw [halfMergePair_nil_left] at hz
          obtain ⟨b, hb, rfl⟩ := List.mem_map.mp hz
          exact Or.inr ⟨b, hb, rfl⟩
      | cons x xs =>
          cases l2 with
          | nil =>
              rw [halfMergePair_nil_right] at hz
              obtain ⟨a, ha, rfl⟩ := List.mem_map.mp hz
              exact Or.inl ⟨a, ha, rfl⟩
          | cons y ys =>
              simp only [List.length_cons] at hlen
              rw [halfMergePair_cons_cons] at hz
              rcases lt_trichotomy x.dof y.dof with hxy | hxy | hxy
              · rw [if_pos hxy] at hz
                rcases List.mem_cons.mp hz with rfl | hz1
                · exact Or.inl ⟨x, List.mem_cons_self _ _, rfl⟩
                · rcases ih xs (y :: ys) (by simp; omega) z hz1 with
                    ⟨a, ha, hza⟩ | hb
                  · exact Or.inl ⟨a, List.mem_cons_of_mem _ ha, hza⟩
                  · exact Or.inr hb
              · rw [if_neg (by rw [hxy]; exact lt_irrefl _),
                  if_neg (by rw [hxy]; exact lt_irrefl _)] at hz
                rcases List.mem_cons.mp hz with rfl | hz1
                · exact Or.inl ⟨x, List.mem_cons_self _ _, rfl⟩
                · rcases ih xs ys (by omega) z hz1 with ⟨a, ha, hza⟩ | ⟨b, hb, hzb⟩
                  · exact Or.inl ⟨a, List.mem_cons_of_mem _ ha, hza⟩
                  · exact Or.inr ⟨b, List.mem_cons_of_mem _ hb, hzb⟩
              · rw [if_neg (by omega), if_pos hxy] at hz
                rcases List.mem_cons.mp hz with rfl | hz1
                · exact Or.inr ⟨y, List.mem_cons_self _ _, rfl⟩
                · rcases ih (x :: xs) ys (by simp; omega) z hz1 with
                    ha | ⟨b, hb, hzb⟩
                  · exact Or.inl ha
                  · exact Or.inr ⟨b, List.mem_cons_of_mem _ hb, hzb⟩

theorem halfMergePair_sorted : ∀ (n : ℕ) (l1 l2 : List BaseComponent),
    l1.length + l2.length ≤ n → sortedByDof l1 → sortedByDof l2 →
    sortedByDof (halfMergePair l1 l2) := by
  intro n
  induction n with
  | zero =>
      intro l1 l2 hlen h1 h2
      have hl1 : l1 = [] := List.length_eq_zero.mp (by omega)
      have hl2 : l2 = [] := List.length_eq_zero.mp (by omega)
      subst hl1; subst hl2
      rw [halfMergePair_nil_left]
      exact List.Pairwise.nil
  | succ n ih =>
      intro l1 l2 hlen h1 h2
      cases l1 with
      | nil =>
          rw [halfMergePair_nil_left]
          unfold sortedByDof at h2 ⊢
          exact h2.map half (fun a b hab => hab)
      | cons x xs =>
          cases l2 with
          | nil =>
              rw [halfMergePair_nil_right]
              unfold sortedByDof at h1 ⊢
              exact h1.map half (fun a b hab => hab)
          | cons y ys =>
              obtain ⟨hx_all, hxs⟩ := sortedByDof_cons h1
              obtain ⟨hy_all, hys⟩ := sortedByDof_cons h2
              simp only [List.length_cons] at hlen
              rw [halfMergePair_cons_cons]
              rcases lt_trichotomy x.dof y.dof with hxy | hxy | hxy
              · rw [if_pos hxy]
                unfold sortedByDof
                rw [List.pairwise_cons]
                refine ⟨?_, ih xs (y :: ys) (by simp; omega) hxs h2⟩
                intro z hz
                rcases halfMergePair_dof_subset (xs.length + (y :: ys).length)
                    xs (y :: ys) le_rfl z hz with ⟨a, ha, hza⟩ | ⟨b, hb, hzb⟩
                · rw [show (half x).dof = x.dof from rfl, hza]
                  exact hx_all a ha
                · rw [show (half x).dof = x.dof from rfl, hzb]
                  rcases List.mem_cons.mp hb with rfl | hb1
                  · exact hxy
                  · exact hxy.trans (hy_all b hb1)
              · rw [if_neg (by rw [hxy]; exact lt_irrefl _),
                  if_neg (by rw [hxy]; exact lt_irrefl _)]
                unfold sortedByDof
                rw [List.pairwise_cons]
                refine ⟨?_, ih xs ys (by omega) hxs hys⟩
                intro z hz
                rcases halfMergePair_dof_subset (xs.length + ys.length)
                    xs ys le_rfl z hz with ⟨a, ha, hza⟩ | ⟨b, hb, hzb⟩
                · rw [hza]
                  exact hx_all a ha
                · rw [hzb]
                  rw [hxy]
                  exact hy_all b hb
              · rw [if_neg (by omega), if_pos hxy]
                unfold sortedByDof
                rw [List.pairwise_cons]
                refine ⟨?_, ih (x :: xs) ys (by simp; omega) h1 hys⟩
                intro z hz
                rcases halfMergePair_dof_subset ((x :: xs).length + ys.length)
                    (x :: xs) ys le_rfl z hz with ⟨a, ha, hza⟩ | ⟨b, hb, hzb⟩
                · rw [show (half y).dof = y.dof from rfl, hza]
                  rcases List.mem_cons.mp ha with rfl | ha1
                  · exact hxy
                  · exact hxy.trans (hx_all a ha1)
                · rw [show (half y).dof = y.dof from rfl, hzb]
                  exact hy_all b hb

theorem halfMergePair_mem_left : ∀ (n : ℕ) (l1 l2 : List BaseComponent),
    l1.length + l2.length ≤ n → sortedByDof l1 → sortedByDof l2 →
    ∀ x ∈ l1, (∀ y ∈ l2, y.dof ≠ x.dof) →
    half x ∈ halfMergePair l1 l2 := by
  intro n
  induction n with
  | zero =>
      intro l1 l2 hlen _ _ x hx _
      have hl1 : l1 = [] := List.length_eq_zero.mp (by omega)
      subst hl1
      simp at hx
  | succ n ih =>
      intro l1 l2 hlen h1 h2 x hx hnot
      cases l1 with
      | nil => simp at hx
      | cons a as =>
          cases l2 with
          | nil =>
              rw [halfMergePair_nil_right]
              exact List.mem_map_of_mem half hx
          | cons b bs =>
              obtain ⟨ha_all, has⟩ := sortedByDof_cons h1
              obtain ⟨hb_all, hbs⟩ := sortedByDof_cons h2
              simp only [List.length_cons] at hlen
              rw [halfMergePair_cons_cons]
              rcases lt_trichotomy a.dof b.dof with hab | hab | hab
              · rw [if_pos hab]
                rcases List.mem_cons.mp hx with rfl | hx1
                · exact List.mem_cons_self _ _
                · exact List.mem_cons_of_mem _
                    (ih as (b :: bs) (by simp; omega) has h2 x hx1 hnot)
              · rw [if_neg (by rw [hab]; exact lt_irrefl _),
                  if_neg (by rw [hab]; exact lt_irrefl _)]
                rcases List.mem_cons.mp hx with rfl | hx1
                · exact absurd hab.symm (hnot b (List.mem_cons_self _ _))
                · exact List.mem_cons_of_mem _
                    (ih as bs (by omega) has hbs x hx1
                      (fun y hy => hnot y (List.mem_cons_of_mem _ hy)))
              · rw [if_neg (by omega), if_pos hab]
                exact List.mem_cons_of_mem _
                  (ih (a :: as) bs (by simp; omega) h1 hbs x hx
                    (fun y hy => hnot y (List.mem_cons_of_mem _ hy)))

theorem halfMergePair_mem_right : ∀ (n : ℕ) (l1 l2 : List BaseComponent),
    l1.length + l2.length ≤ n → sortedByDof l1 → sortedByDof l2 →
    ∀ y ∈ l2, (∀ x ∈ l1, x.dof ≠ y.dof) →
    half y ∈ halfMergePair l1 l2 := by
  intro n
  induction n with
  | zero =>
      intro l1 l2 hlen _ _ y hy _
      have hl2 : l2 = [] := List.length_eq_zero.mp (by omega)
      subst hl2
      simp at hy
  | succ n ih =>
      intro l1 l2 hlen h1 h2 y hy hnot
      cases l1 with
      | nil =>
          rw [halfMergePair_nil_left]
          exact List.mem_map_of_mem half hy
      | cons a as =>
          cases l2 with
          | nil => simp at hy
          | cons b bs =>
              obtain ⟨ha_all, has⟩ := sortedByDof_cons h1
              obtain ⟨hb_all, hbs⟩ := sortedByDof_cons h2
              simp only [List.length_cons] at hlen
              rw [halfMergePair_cons_cons]
              rcases lt_trichotomy a.dof b.dof with hab | hab | hab
              · rw [if_pos hab]
                exact List.mem_cons_of_mem _
                  (ih as (b :: bs) (by simp; omega) has h2 y hy
                    (fun x hx => hnot x (List.mem_cons_of_mem _ hx)))
              · rw [if_neg (by rw [hab]; exact lt_irrefl _),
                  if_neg (by rw [hab]; exact lt_irrefl _)]
                rcases List.mem_cons.mp hy with rfl | hy1
                · exact absurd hab (hnot a (List.mem_cons_self _ _))
                · exact List.mem_cons_of_mem _
                    (ih as bs (by omega) has hbs y hy1
                      (fun x hx => hnot x (List.mem_cons_of_mem _ hx)))
              · rw [if_neg (by omega), if_pos hab]
                rcases List.mem_cons.mp hy with rfl | hy1
                · exact List.mem_cons_self _ _
                · exact List.mem_cons_of_mem _
                    (ih (a :: as) bs (by simp; omega) h1 hbs y hy1 hnot)

theorem halfMergePair_mem_both : ∀ (n : ℕ) (l1 l2 : List BaseComponent),
    l1.length + l2.length ≤ n → sortedByDof l1 → sortedByDof l2 →
    ∀ x ∈ l1, ∀ y ∈ l2, x.dof = y.dof →
    (⟨x.dof, y.coef * (1 / 2) + x.coef * (1 / 2)⟩ : BaseComponent) ∈
      halfMergePair l1 l2 := by
  intro n
  induction n with
  | zero =>
      intro l1 l2 hlen _ _ x hx _ _ _
      have hl1 : l1 = [] := List.length_eq_zero.mp (by omega)
      subst hl1
      simp at hx
  | succ n ih =>
      intro l1 l2 hlen h1 h2 x hx y hy hxy
      cases l1 with
      | nil => simp at hx
      | cons a as =>
          cases l2 with
          | nil => simp at hy
          | cons b bs =>
              obtain ⟨ha_all, has⟩ := sortedByDof_cons h1
              obtain ⟨hb_all, hbs⟩ := sortedByDof_cons h2
              simp only [List.length_cons] at hlen
              rw [halfMergePair_cons_cons]
              rcases lt_trichotomy a.dof b.dof with hab | hab | hab
              · rw [if_pos hab]
                rcases List.mem_cons.mp hx with rfl | hx1
                · exfalso
                  rcases List.mem_cons.mp hy with rfl | hy1
                  · exact absurd hxy (by omega)
                  · have := hb_all y hy1
                    omega
                · exact List.mem_cons_of_mem _
                    (ih as (b :: bs) (by simp; omega) has h2 x hx1 y hy hxy)
              · rw [if_neg (by rw [hab]; exact lt_irrefl _),
                  if_neg (by rw [hab]; exact lt_irrefl _)]
                rcases List.mem_cons.mp hx with rfl | hx1
                · rcases List.mem_cons.mp hy with rfl | hy1
                  · exact List.mem_cons_self _ _
                  · exfalso
                    have := hb_all y hy1
                    omega
                · rcases List.mem_cons.mp hy with rfl | hy1
                  · exfalso
                    have := ha_all x hx1
                    omega
                  · exact List.mem_cons_of_mem _
                      (ih as bs (by omega) has hbs x hx1 y hy1 hxy)
              · rw [if_neg (by omega), if_pos hab]
                rcases List.mem_cons.mp hy with rfl | hy1
                · exfalso
                  rcases List.mem_cons.mp hx with rfl | hx1
                  · omega
                  · have := ha_all x hx1
                    omega
                · exact List.mem_cons_of_mem _
                    (ih (a :: as) bs (by simp; omega) h1 hbs x hx y hy1 hxy)

/-! ## The baselist merge: relating the stateful loop to the functional layer -/

theorem getD_append_cons (pre : List BaseComponent) (c : BaseComponent)
    (pad : List BaseComponent) :
    (pre ++ c :: pad).getD pre.length default = c := by
  induction pre with
  | nil => rfl
  | cons p ps ih => simpa using ih

theorem set_append_cons (pre : List BaseComponent) (c v : BaseComponent)
    (pad : List BaseComponent) :
    (pre ++ c :: pad).set pre.length v = pre ++ v :: pad := by
  induction pre with
  | nil => rfl
  | cons p ps ih => simpa using ih

theorem output_component_coalesce {st : MergeState} {mn : BaseComponent} {l : ℕ}
    (hlast : st.last = some l)
    (hdof : (st.result.getD l default).dof = mn.dof) :
    output_component st mn =
      { st with result := st.result.set l (BaseComponent.mk
          (st.result.getD l default).dof
          ((st.result.getD l default).coef + mn.coef * (1 / 2))) } := by
  have hdof2 : (st.result[l]?.getD default).dof = mn.dof := by
    simpa [List.getD] using hdof
  unfold output_component
  simp [hlast, List.getD, hdof2]

theorem output_component_emit_noedge {st : MergeState} {mn : BaseComponent}
    (hcoal : ∀ l, st.last = some l → (st.result.getD l default).dof ≠ mn.dof)
    (hedge : st.edge = none) :
    output_component st mn =
      { st with
        result := st.result.set st.current (BaseComponent.mk mn.dof (mn.coef * (1 / 2))),
        last := some st.current,
        current := st.current + 1 } := by
  unfold output_component
  cases hl : st.last with
  | none => simp [hl, hedge]
  | some l =>
      have h2 : ¬ (st.result[l]?.getD default).dof = mn.dof := by
        simpa [List.getD] using hcoal l hl
      simp [hl, hedge, List.getD, h2]

theorem output_component_emit_edge_lt {st : MergeState} {mn : BaseComponent}
    {ed : ℤ} {en : ℕ}
    (hcoal : ∀ l, st.last = some l → (st.result.getD l default).dof ≠ mn.dof)
    (hedge : st.edge = some (ed, en)) (hlt : mn.dof < ed) :
    output_component st mn =
      { st with
        result := st.result.set st.current (BaseComponent.mk mn.dof (mn.coef * (1 / 2))),
        last := some st.current,
        current := st.current + 1 } := by
  unfold output_component
  have hnle : ¬ ed ≤ mn.dof := by omega
  cases hl : st.last with
  | none => simp [hl, hedge, hnle]
  | some l =>
      have h2 : ¬ (st.result[l]?.getD default).dof = mn.dof := by
        simpa [List.getD] using hcoal l hl
      simp [hl, hedge, List.getD, h2, hnle]

theorem output_component_emit_edge_reserve {st : MergeState} {mn : BaseComponent}
    {ed : ℤ} {en : ℕ}
    (hcoal : ∀ l, st.last = some l → (st.result.getD l default).dof ≠ mn.dof)
    (hedge : st.edge = some (ed, en)) (hge : ed ≤ mn.dof)
    (hskip : ed ≠ mn.dof ∨ en = 0) :
    output_component st mn =
      { st with
        edge_dofs := some st.current,
        edge := none,
        result := st.result.set (st.current + en)
          (BaseComponent.mk mn.dof (mn.coef * (1 / 2))),
        last := some (st.current + en),
        current := st.current + en + 1 } := by
  unfold output_component
  have hen : (if ed ≠ mn.dof then en else 0) = en := by
    rcases hskip with h | h
    · rw [if_pos h]
    · subst h
      split <;> rfl
  cases hl : st.last with
  | none => simp [hl, hedge, hge, hen]
  | some l =>
      have h2 : ¬ (st.result[l]?.getD default).dof = mn.dof := by
        simpa [List.getD] using hcoal l hl
      simp [hl, hedge, List.getD, h2, hge, hen]

theorem mergeLoop_eq_foldl : ∀ (n : ℕ) (l1 l2 : List BaseComponent) (st : MergeState),
    l1.length + l2.length ≤ n →
    mergeLoop l1 l2 st = (mergeSeq l1 l2).foldl output_component st := by
  intro n
  induction n with
  | zero =>
      intro l1 l2 st hlen
      have hl1 : l1 = [] := List.length_eq_zero.mp (by omega)
      have hl2 : l2 = [] := List.length_eq_zero.mp (by omega)
      subst hl1; subst hl2
      simp [mergeLoop, mergeSeq]
  | succ n ih =>
      intro l1 l2 st hlen
      cases l1 with
      | nil =>
          cases l2 with
          | nil => simp [mergeLoop, mergeSeq]
          | cons y ys =>
              rw [mergeLoop, mergeSeq_nil_left, List.foldl_cons,
                ih [] ys (output_component st y) (by simp at hlen ⊢; omega),
                mergeSeq_nil_left]
      | cons x xs =>
          cases l2 with
          | nil =>
              rw [mergeLoop, mergeSeq_nil_right, List.foldl_cons,
                ih xs [] (output_component st x) (by simp at hlen ⊢; omega),
                mergeSeq_nil_right]
          | cons y ys =>
              rw [mergeLoop, mergeSeq_cons_cons]
              simp only [List.length_cons] at hlen
              by_cases hxy : x.dof < y.dof
              · rw [if_pos hxy, if_pos hxy, List.foldl_cons,
                  ih xs (y :: ys) (output_component st x) (by simp; omega)]
              · rw [if_neg hxy, if_neg hxy, List.foldl_cons,
                  ih (x :: xs) ys (output_component st y) (by simp; omega)]

/-- The closed-phase simulation: from a state whose result holds `pre ++ c :: pad`
with the write pointer just past `c` and `last` pointing at `c`, folding
`output_component` over a consumption sequence whose dofs all lie below any
pending edge dof leaves the edge state untouched and replaces `c :: pad` by
`outRun c s` (padded). -/
theorem foldl_output_run : ∀ (s : List BaseComponent) (pre : List BaseComponent)
    (c : BaseComponent) (pad : List BaseComponent) (eopt : Option (ℤ × ℕ))
    (edof : Option ℕ),
    s.length ≤ pad.length →
    (∀ ed en, eopt = some (ed, en) → c.dof < ed) →
    (∀ x ∈ s, ∀ ed en, eopt = some (ed, en) → x.dof < ed) →
    ∃ pad' : List BaseComponent,
      (outRun c s).length + pad'.length = pad.length + 1 ∧
      List.foldl output_component
        (⟨pre ++ c :: pad, pre.length + 1, some pre.length, eopt, edof⟩ : MergeState) s =
        ⟨pre ++ outRun c s ++ pad', pre.length + (outRun c s).length,
          some (pre.length + (outRun c s).length - 1), eopt, edof⟩ := by
  intro s
  induction s with
  | nil =>
      intro pre c pad eopt edof _ _ _
      refine ⟨pad, by simp [outRun]; omega, ?_⟩
      simp [outRun]
  | cons x xs ih =>
      intro pre c pad eopt edof hlen hc hall
      by_cases hx : x.dof = c.dof
      · have hoc : output_component
            (⟨pre ++ c :: pad, pre.length + 1, some pre.length, eopt, edof⟩ : MergeState) x =
            ⟨pre ++ (⟨c.dof, c.coef + x.coef * (1 / 2)⟩ : BaseComponent) :: pad,
              pre.length + 1, some pre.length, eopt, edof⟩ := by
          rw [output_component_coalesce (l := pre.length) rfl
            (by rw [getD_append_cons]; exact hx.symm)]
          rw [getD_append_cons, set_append_cons]
        obtain ⟨pad', hl', heq⟩ := ih pre ⟨c.dof, c.coef + x.coef * (1 / 2)⟩ pad eopt edof
          (by simp at hlen ⊢; omega) (fun ed en he => hc ed en he)
          (fun z hz ed en he => hall z (List.mem_cons_of_mem _ hz) ed en he)
        refine ⟨pad', ?_, ?_⟩
        · rw [outRun_eq hx]
          exact hl'
        · rw [List.foldl_cons, hoc, heq, outRun_eq hx]
      · cases pad with
        | nil => simp at hlen
        | cons p pad2 =>
            have hcoal : ∀ l, (some pre.length : Option ℕ) = some l →
                ((pre ++ c :: p :: pad2).getD l default).dof ≠ x.dof := by
              intro l hl
              cases hl
              rw [getD_append_cons]
              exact fun h => hx h.symm
            have harr : (pre ++ c :: p :: pad2).set (pre.length + 1)
                (BaseComponent.mk x.dof (x.coef * (1 / 2))) =
                (pre ++ [c]) ++ half x :: pad2 := by
              have h1 : pre ++ c :: p :: pad2 = (pre ++ [c]) ++ p :: pad2 := by simp
              have h2 : (pre ++ [c]).length = pre.length + 1 := by simp
              rw [h1, ← h2, set_append_cons]
              rfl
            have hoc : output_component
                (⟨pre ++ c :: p :: pad2, pre.length + 1, some pre.length, eopt, edof⟩ :
                  MergeState) x =
                ⟨(pre ++ [c]) ++ half x :: pad2, (pre ++ [c]).length + 1,
                  some (pre ++ [c]).length, eopt, edof⟩ := by
              cases eopt with
              | none =>
                  rw [output_component_emit_noedge hcoal rfl]
                  simp [harr, half, one_div]
              | some pr =>
                  obtain ⟨ed, en⟩ := pr
                  rw [output_component_emit_edge_lt hcoal rfl
                    (hall x (List.mem_cons_self _ _) ed en rfl)]
                  simp [harr, half, one_div]
            obtain ⟨pad', hl', heq⟩ := ih (pre ++ [c]) (half x) pad2 eopt edof
              (by simp at hlen ⊢; omega)
              (fun ed en he => hall x (List.mem_cons_self _ _) ed en he)
              (fun z hz ed en he => hall z (List.mem_cons_of_mem _ hz) ed en he)
            refine ⟨pad', ?_, ?_⟩
            · rw [outRun_ne hx]
              simp only [List.length_cons] at hl' ⊢
              omega
            · rw [List.foldl_cons, hoc, heq, outRun_ne hx]
              have hLpos := outRun_length_pos (half x) xs
              simp only [MergeState.mk.injEq, Option.some.injEq, List.append_assoc,
                List.cons_append, List.singleton_append, List.nil_append,
                List.length_append, List.length_cons, List.length_singleton,
                List.length_nil]
              simp only [true_and, and_true]
              omega

theorem dropWhile_head_false {p : BaseComponent → Bool}
    {l t : List BaseComponent} {h : BaseComponent}
    (he : l.dropWhile p = h :: t) : p h = false := by
  induction l with
  | nil => simp at he
  | cons a l ih =>
      rw [List.dropWhile_cons] at he
      by_cases ha : p a = true
      · rw [if_pos ha] at he
        exact ih he
      · rw [if_neg ha] at he
        cases he
        exact Bool.not_eq_true _ ▸ (by simpa using ha)

theorem take_append_len (l1 l2 : List BaseComponent) (i : ℕ) :
    (l1 ++ l2).take (l1.length + i) = l1 ++ l2.take i := by
  induction l1 with
  | nil => simp
  | cons a l ih => simp [ih, Nat.succ_add]

/-- Starting the merge loop from its initial state: folding a nonempty
consumption sequence whose dofs all lie below any pending edge dof yields
`outList s` (padded), without touching the edge state. -/
theorem foldl_output_start (s pad : List BaseComponent) (eopt : Option (ℤ × ℕ))
    (hne : s ≠ []) (hlen : s.length ≤ pad.length)
    (hall : ∀ x ∈ s, ∀ ed en, eopt = some (ed, en) → x.dof < ed) :
    ∃ pad' : List BaseComponent,
      (outList s).length + pad'.length = pad.length ∧
      0 < (outList s).length ∧
      List.foldl output_component (⟨pad, 0, none, eopt, none⟩ : MergeState) s =
        ⟨outList s ++ pad', (outList s).length,
          some ((outList s).length - 1), eopt, none⟩ := by
  cases s with
  | nil => exact absurd rfl hne
  | cons x xs =>
      cases pad with
      | nil => simp at hlen
      | cons p pad2 =>
          have hcoal : ∀ l, (none : Option ℕ) = some l →
              (((p :: pad2).getD l default)).dof ≠ x.dof := by
            intro l hl
            cases hl
          have hoc : output_component
              (⟨p :: pad2, 0, none, eopt, none⟩ : MergeState) x =
              ⟨([] : List BaseComponent) ++ half x :: pad2,
                ([] : List BaseComponent).length + 1,
                some ([] : List BaseComponent).length, eopt, none⟩ := by
            cases eopt with
            | none =>
                rw [output_component_emit_noedge hcoal rfl]
                simp [half, one_div]
            | some pr =>
                obtain ⟨ed, en⟩ := pr
                rw [output_component_emit_edge_lt hcoal rfl
                  (hall x (List.mem_cons_self _ _) ed en rfl)]
                simp [half, one_div]
          obtain ⟨pad', hl', heq⟩ := foldl_output_run xs [] (half x) pad2 eopt none
            (by simp at hlen ⊢; omega)
            (fun ed en he => hall x (List.mem_cons_self _ _) ed en he)
            (fun z hz ed en he => hall z (List.mem_cons_of_mem _ hz) ed en he)
          refine ⟨pad', ?_, ?_, ?_⟩
          · rw [outList]
            simp only [List.length_cons] at hl' ⊢
            omega
          · rw [outList]
            exact outRun_length_pos _ _
          · rw [List.foldl_cons, hoc, heq, outList]
            simp

theorem getD_append_left (A B : List BaseComponent) (n : ℕ) (h : n < A.length)
    (d : BaseComponent) : (A ++ B).getD n d = A.getD n d := by
  induction A generalizing n with
  | nil => simp at h
  | cons a A ih =>
      cases n with
      | zero => rfl
      | succ m => simpa using ih m (by simpa using h)

theorem getD_mem_of_lt (A : List BaseComponent) (n : ℕ) (h : n < A.length)
    (d : BaseComponent) : A.getD n d ∈ A := by
  induction A generalizing n with
  | nil => simp at h
  | cons a A ih =>
      cases n with
      | zero => exact List.mem_cons_self _ _
      | succ m => exact List.mem_cons_of_mem _ (ih m (by simpa using h))

theorem take_left_exact (A B : List BaseComponent) : (A ++ B).take A.length = A := by
  have := take_append_len A B 0
  simpa using this

/-- The full characterization of `merge_baselists` when called with the
constraining edge node `(ed, en)`, provided no input dof falls inside the
reserved range `[ed, ed + en)`: the result is the processed low part, an
`en`-slot reserved block (whose contents the caller's fill loop overwrites),
and the processed high part; `edge_dofs` points at the reserved block and
`ncomponents` counts all three. -/
theorem merge_baselists_char (l1 l2 : List BaseComponent) (ed : ℤ) (en : ℕ)
    (hdisj : ∀ c, c ∈ l1 ∨ c ∈ l2 → c.dof < ed ∨ ed + (en : ℤ) ≤ c.dof) :
    ∃ padA : List BaseComponent, padA.length = en ∧
      merge_baselists l1 l2 (some (ed, en)) =
        (outList (lowPart (mergeSeq l1 l2) ed) ++ padA ++
            outList (highPart (mergeSeq l1 l2) ed),
          some (outList (lowPart (mergeSeq l1 l2) ed)).length,
          (outList (lowPart (mergeSeq l1 l2) ed)).length + en +
            (outList (highPart (mergeSeq l1 l2) ed)).length) := by
  have hsplit : lowPart (mergeSeq l1 l2) ed ++ highPart (mergeSeq l1 l2) ed =
      mergeSeq l1 l2 := by
    unfold lowPart highPart
    exact List.takeWhile_append_dropWhile _ _
  have hlowall : ∀ x ∈ lowPart (mergeSeq l1 l2) ed, x.dof < ed := by
    intro x hx
    have := List.mem_takeWhile_imp hx
    simpa using this
  have hhead : ∀ h t, highPart (mergeSeq l1 l2) ed = h :: t →
      ed ≤ h.dof ∧ (ed ≠ h.dof ∨ en = 0) := by
    intro h t hht
    have hfalse := dropWhile_head_false hht
    have hge : ed ≤ h.dof := by
      have h2 : ¬ h.dof < ed := by simpa using hfalse
      omega
    have hmem : h ∈ mergeSeq l1 l2 := by
      rw [← hsplit]
      exact List.mem_append_right _ (hht ▸ List.mem_cons_self h t)
    have hd := hdisj h (mem_mergeSeq.mp hmem)
    exact ⟨hge, by omega⟩
  obtain ⟨sL, hL⟩ : ∃ sL, lowPart (mergeSeq l1 l2) ed = sL := ⟨_, rfl⟩
  obtain ⟨sH, hH⟩ : ∃ sH, highPart (mergeSeq l1 l2) ed = sH := ⟨_, rfl⟩
  rw [hL] at hsplit hlowall
  rw [hH] at hsplit hhead
  rw [hL, hH]
  have hlen : sL.length + sH.length = l1.length + l2.length := by
    have h1 := mergeSeq_length l1 l2
    rw [← hsplit] at h1
    simpa using h1
  unfold merge_baselists
  rw [mergeLoop_eq_foldl (l1.length + l2.length) l1 l2 _ (le_refl _)]
  simp only [edgeCount]
  rw [← hsplit, List.foldl_append]
  cases sH with
  | nil =>
      rw [List.foldl_nil]
      cases sL with
      | nil =>
          rw [List.foldl_nil]
          refine ⟨List.replicate en default, by simp, ?_⟩
          simp only [mergeFinish]
          rw [List.take_replicate]
          have hmin : min (0 + en) (l1.length + l2.length + en) = en := by omega
          rw [hmin]
          simp [outList]
      | cons a sLt =>
          obtain ⟨pad', hq, hqpos, heq⟩ := foldl_output_start (a :: sLt)
            (List.replicate (l1.length + l2.length + en) default) (some (ed, en))
            (by simp)
            (by
              simp only [List.length_replicate, List.length_cons,
                List.length_nil] at hlen ⊢
              omega)
            (by
              intro x hx ed' en' he
              cases he
              exact hlowall x hx)
          simp only [List.length_replicate] at hq
          rw [heq]
          simp only [mergeFinish]
          have h1 := outList_length_le (a :: sLt)
          simp only [List.length_cons, List.length_nil, Nat.add_zero] at hlen h1
          refine ⟨pad'.take en, by simp [List.length_take]; omega, ?_⟩
          rw [take_append_len]
          simp [outList]
  | cons h hs =>
      obtain ⟨hge, hskip⟩ := hhead h hs rfl
      cases sL with
      | nil =>
          have hN : 1 ≤ l1.length + l2.length := by
            simp only [List.length_nil, List.length_cons] at hlen
            omega
          have hsplitrep :
              (List.replicate (l1.length + l2.length + en)
                (default : BaseComponent)).set en
                  (BaseComponent.mk h.dof (h.coef * 2⁻¹)) =
              List.replicate en default ++
                half h :: List.replicate (l1.length + l2.length - 1) default := by
            have h1 : l1.length + l2.length + en =
                en + (1 + (l1.length + l2.length - 1)) := by omega
            rw [h1, List.replicate_add, List.replicate_add, List.replicate_one,
              List.singleton_append]
            have h2 := set_append_cons (List.replicate en default) default
              (BaseComponent.mk h.dof (h.coef * 2⁻¹))
              (List.replicate (l1.length + l2.length - 1) default)
            rw [List.length_replicate] at h2
            rw [h2]
            simp [half]
          have hoc : output_component
              (⟨List.replicate (l1.length + l2.length + en) default, 0, none,
                some (ed, en), none⟩ : MergeState) h =
              ⟨List.replicate en default ++
                  half h :: List.replicate (l1.length + l2.length - 1) default,
                en + 1, some en, none, some 0⟩ := by
            rw [output_component_emit_edge_reserve (by intro l hl; simp at hl)
              rfl hge hskip]
            simp [hsplitrep]
          obtain ⟨pad', hplen, hfold⟩ := foldl_output_run hs
            (List.replicate en default) (half h)
            (List.replicate (l1.length + l2.length - 1) default) none (some 0)
            (by
              simp only [List.length_replicate]
              simp only [List.length_nil, List.length_cons] at hlen
              omega)
            (fun ed' en' he => Option.noConfusion he)
            (fun z hz ed' en' he => Option.noConfusion he)
          simp only [List.length_replicate] at hfold
          rw [List.foldl_nil, List.foldl_cons, hoc, hfold]
          refine ⟨List.replicate en default, by simp, ?_⟩
          simp only [mergeFinish]
          have htake : (List.replicate en (default : BaseComponent) ++
              outRun (half h) hs ++ pad').take
                (en + (outRun (half h) hs).length) =
              List.replicate en default ++ outRun (half h) hs := by
            have h1 := take_left_exact
              (List.replicate en default ++ outRun (half h) hs) pad'
            simpa using h1
          rw [htake]
          simp [outList]
      | cons a sLt =>
          obtain ⟨pad', hq, hqpos, heq⟩ := foldl_output_start (a :: sLt)
            (List.replicate (l1.length + l2.length + en) default) (some (ed, en))
            (by simp)
            (by
              simp only [List.length_replicate, List.length_cons] at hlen ⊢
              omega)
            (by
              intro x hx ed' en' he
              cases he
              exact hlowall x hx)
          simp only [List.length_replicate] at hq
          have h1 := outList_length_le (a :: sLt)
          simp only [List.length_cons] at hlen h1
          have hcoal : ∀ l,
              (some ((outList (a :: sLt)).length - 1) : Option ℕ) = some l →
              ((outList (a :: sLt) ++ pad').getD l default).dof ≠ h.dof := by
            intro l hl
            injection hl with hl
            subst hl
            rw [getD_append_left _ _ _ (by omega)]
            have hz := getD_mem_of_lt (outList (a :: sLt))
              ((outList (a :: sLt)).length - 1) (by omega) default
            obtain ⟨y, hy, hzy⟩ := outList_dof_subset hz
            have := hlowall y hy
            omega
          have hple : en + 1 ≤ pad'.length := by omega
          have hdropne : pad'.drop en ≠ [] := by
            intro hc
            have := congrArg List.length hc
            simp at this
            omega
          obtain ⟨p₁, padB, hd2⟩ := List.exists_cons_of_ne_nil hdropne
          have hpad : pad' = pad'.take en ++ p₁ :: padB := by
            rw [← hd2, List.take_append_drop]
          have htklen : (pad'.take en).length = en := by
            simp [List.length_take]
            omega
          have hpadBlen : en + (padB.length + 1) = pad'.length := by
            have := congrArg List.length hpad
            simp only [List.length_append, List.length_cons, htklen] at this
            omega
          have harr : (outList (a :: sLt) ++ pad').set
              ((outList (a :: sLt)).length + en)
              (BaseComponent.mk h.dof (h.coef * 2⁻¹)) =
              (outList (a :: sLt) ++ pad'.take en) ++ half h :: padB := by
            conv_lhs => rw [hpad]
            rw [show outList (a :: sLt) ++ (pad'.take en ++ p₁ :: padB) =
              (outList (a :: sLt) ++ pad'.take en) ++ p₁ :: padB from by
                rw [List.append_assoc]]
            have h2 := set_append_cons (outList (a :: sLt) ++ pad'.take en) p₁
              (BaseComponent.mk h.dof (h.coef * 2⁻¹)) padB
            rw [List.length_append, htklen] at h2
            rw [h2]
            simp [half]
          have hoc : output_component
              (⟨outList (a :: sLt) ++ pad', (outList (a :: sLt)).length,
                some ((outList (a :: sLt)).length - 1), some (ed, en), none⟩ :
                MergeState) h =
              ⟨(outList (a :: sLt) ++ pad'.take en) ++ half h :: padB,
                ((outList (a :: sLt)).length + en) + 1,
                some ((outList (a :: sLt)).length + en), none,
                some (outList (a :: sLt)).length⟩ := by
            rw [output_component_emit_edge_reserve hcoal rfl hge hskip]
            simp [harr]
          obtain ⟨pad'', hplen2, hfold2⟩ := foldl_output_run hs
            (outList (a :: sLt) ++ pad'.take en) (half h) padB none
            (some (outList (a :: sLt)).length)
            (by omega)
            (fun ed' en' he => Option.noConfusion he)
            (fun z hz ed' en' he => Option.noConfusion he)
          have hpre : (outList (a :: sLt) ++ pad'.take en).length =
              (outList (a :: sLt)).length + en := by
            rw [List.length_append, htklen]
          rw [hpre] at hfold2
          rw [heq, List.foldl_cons, hoc, hfold2]
          refine ⟨pad'.take en, htklen, ?_⟩
          simp only [mergeFinish]
          have htake : (outList (a :: sLt) ++ pad'.take en ++
              outRun (half h) hs ++ pad'').take
                ((outList (a :: sLt)).length + en + (outRun (half h) hs).length) =
              outList (a :: sLt) ++ pad'.take en ++ outRun (half h) hs := by
            have h3 := take_left_exact
              (outList (a :: sLt) ++ pad'.take en ++ outRun (half h) hs) pad''
            rw [List.length_append, List.length_append, htklen] at h3
            exact h3
          rw [htake]
          simp [outList, List.append_assoc]

theorem edgeBlock_succ (ed : ℤ) (en : ℕ) (f : ℕ → ℚ) :
    edgeBlock ed (en + 1) f =
      (⟨ed, f 0⟩ : BaseComponent) :: edgeBlock (ed + 1) en (fun k => f (k + 1)) := by
  unfold edgeBlock
  rw [List.range_succ_eq_map, List.map_cons, List.map_map]
  congr 1
  · simp
  · apply List.map_congr_left
    intro k _
    simp only [Function.comp_apply, BaseComponent.mk.injEq, Nat.succ_eq_add_one]
    constructor
    · push_cast
      ring
    · trivial

theorem fill_edge_dofs_spec : ∀ (en : ℕ) (ed : ℤ) (f : ℕ → ℚ)
    (A B C : List BaseComponent), B.length = en →
    fill_edge_dofs (A ++ B ++ C) A.length ed en f = A ++ edgeBlock ed en f ++ C := by
  intro en
  induction en with
  | zero =>
      intro ed f A B C hB
      have hBnil : B = [] := List.length_eq_zero.mp hB
      subst hBnil
      simp [fill_edge_dofs, edgeBlock]
  | succ en ih =>
      intro ed f A B C hB
      cases B with
      | nil => simp at hB
      | cons b B2 =>
          unfold fill_edge_dofs
          rw [List.range_succ_eq_map, List.foldl_cons, List.foldl_map]
          have h0 : ((A ++ b :: B2) ++ C).set (A.length + 0)
              (⟨ed + ((0 : ℕ) : ℤ), f 0⟩ : BaseComponent) =
              (A ++ [(⟨ed, f 0⟩ : BaseComponent)] ++ B2) ++ C := by
            rw [show (A ++ b :: B2) ++ C = A ++ b :: (B2 ++ C) from by simp]
            rw [show A.length + 0 = A.length from rfl, set_append_cons]
            simp
          rw [h0]
          simp only [Nat.succ_eq_add_one]
          have hfun : (fun (r : List BaseComponent) (k : ℕ) =>
              r.set (A.length + (k + 1))
                (⟨ed + ((k + 1 : ℕ) : ℤ), f (k + 1)⟩ : BaseComponent)) =
              (fun (r : List BaseComponent) (k : ℕ) =>
              r.set (A.length + 1 + k)
                (⟨ed + 1 + (k : ℤ), f (k + 1)⟩ : BaseComponent)) := by
            funext r k
            have h1 : A.length + (k + 1) = A.length + 1 + k := by omega
            have h2 : ed + ((k + 1 : ℕ) : ℤ) = ed + 1 + (k : ℤ) := by
              push_cast
              ring
            rw [h1, h2]
          rw [hfun]
          have hih := ih (ed + 1) (fun k => f (k + 1))
            (A ++ [(⟨ed, f 0⟩ : BaseComponent)]) B2 C (by simpa using hB)
          unfold fill_edge_dofs at hih
          simp only [List.length_append, List.length_cons, List.length_nil] at hih
          rw [hih, edgeBlock_succ]
          simp [List.append_assoc]

/-- What `update_constrained_nodes` stores for a constrained mid-edge vertex:
the processed low part, the freshly filled edge-DOF block, and the processed
high part — provided no input dof falls inside the reserved edge range. -/
theorem merged_baselist_spec (l1 l2 : List BaseComponent) (ed : ℤ) (en : ℕ)
    (f : ℕ → ℚ)
    (hdisj : ∀ c, c ∈ l1 ∨ c ∈ l2 → c.dof < ed ∨ ed + (en : ℤ) ≤ c.dof) :
    merged_baselist l1 l2 ed en f =
      outList (lowPart (mergeSeq l1 l2) ed) ++ edgeBlock ed en f ++
        outList (highPart (mergeSeq l1 l2) ed) := by
  obtain ⟨padA, hlenA, hmb⟩ := merge_baselists_char l1 l2 ed en hdisj
  unfold merged_baselist
  rw [hmb]
  show fill_edge_dofs
      (outList (lowPart (mergeSeq l1 l2) ed) ++ padA ++
        outList (highPart (mergeSeq l1 l2) ed))
      (outList (lowPart (mergeSeq l1 l2) ed)).length ed en f = _
  rw [fill_edge_dofs_spec en ed f _ padA _ hlenA]

/-- Taking the below-`ed` prefix commutes with the merge consumption order:
whoever is consumed first among the low elements is exactly the merge of the
low prefixes (no sortedness needed: the first component with `ed ≤ dof` to be
consumed bounds the heads of both remaining lists from below). -/
theorem lowPart_mergeSeq : ∀ (n : ℕ) (l1 l2 : List BaseComponent) (ed : ℤ),
    l1.length + l2.length ≤ n →
    lowPart (mergeSeq l1 l2) ed = mergeSeq (lowPart l1 ed) (lowPart l2 ed) := by
  intro n
  induction n with
  | zero =>
      intro l1 l2 ed hlen
      have hl1 : l1 = [] := List.length_eq_zero.mp (by omega)
      have hl2 : l2 = [] := List.length_eq_zero.mp (by omega)
      subst hl1; subst hl2
      simp [mergeSeq, lowPart]
  | succ n ih =>
      intro l1 l2 ed hlen
      cases l1 with
      | nil => simp [mergeSeq_nil_left, lowPart, mergeSeq]
      | cons x xs =>
          cases l2 with
          | nil => simp [mergeSeq_nil_right, lowPart, mergeSeq_nil_right]
          | cons y ys =>
              simp only [List.length_cons] at hlen
              rw [mergeSeq_cons_cons]
              by_cases hxy : x.dof < y.dof
              · rw [if_pos hxy]
                by_cases hx : x.dof < ed
                · rw [show lowPart (x :: mergeSeq xs (y :: ys)) ed =
                      x :: lowPart (mergeSeq xs (y :: ys)) ed from by
                        simp [lowPart, List.takeWhile_cons, hx]]
                  rw [ih xs (y :: ys) ed (by simp; omega)]
                  rw [show lowPart (x :: xs) ed = x :: lowPart xs ed from by
                    simp [lowPart, List.takeWhile_cons, hx]]
                  by_cases hy : y.dof < ed
                  · rw [show lowPart (y :: ys) ed = y :: lowPart ys ed from by
                      simp [lowPart, List.takeWhile_cons, hy]]
                    rw [mergeSeq_cons_cons, if_pos hxy]
                  · rw [show lowPart (y :: ys) ed = [] from by
                      simp [lowPart, List.takeWhile_cons, hy]]
                    rw [mergeSeq_nil_right, mergeSeq_nil_right]
                · rw [show lowPart (x :: mergeSeq xs (y :: ys)) ed = [] from by
                    simp [lowPart, List.takeWhile_cons, hx]]
                  rw [show lowPart (x :: xs) ed = [] from by
                    simp [lowPart, List.takeWhile_cons, hx]]
                  rw [mergeSeq_nil_left]
                  rw [show lowPart (y :: ys) ed = [] from by
                    simp [lowPart, List.takeWhile_cons]
                    omega]
              · rw [if_neg hxy]
                by_cases hy : y.dof < ed
                · rw [show lowPart (y :: mergeSeq (x :: xs) ys) ed =
                      y :: lowPart (mergeSeq (x :: xs) ys) ed from by
                        simp [lowPart, List.takeWhile_cons, hy]]
                  rw [ih (x :: xs) ys ed (by simp; omega)]
                  rw [show lowPart (y :: ys) ed = y :: lowPart ys ed from by
                    simp [lowPart, List.takeWhile_cons, hy]]
                  by_cases hx : x.dof < ed
                  · rw [show lowPart (x :: xs) ed = x :: lowPart xs ed from by
                      simp [lowPart, List.takeWhile_cons, hx]]
                    rw [mergeSeq_cons_cons, if_neg hxy]
                  · rw [show lowPart (x :: xs) ed = [] from by
                      simp [lowPart, List.takeWhile_cons, hx]]
                    rw [mergeSeq_nil_left, mergeSeq_nil_left]
                · rw [show lowPart (y :: mergeSeq (x :: xs) ys) ed = [] from by
                    simp [lowPart, List.takeWhile_cons, hy]]
                  rw [show lowPart (y :: ys) ed = [] from by
                    simp [lowPart, List.takeWhile_cons, hy]]
                  rw [mergeSeq_nil_right]
                  rw [show lowPart (x :: xs) ed = [] from by
                    simp [lowPart, List.takeWhile_cons]
                    omega]

/-- Dropping the below-`ed` prefix commutes with the merge consumption order. -/
theorem highPart_mergeSeq : ∀ (n : ℕ) (l1 l2 : List BaseComponent) (ed : ℤ),
    l1.length + l2.length ≤ n →
    highPart (mergeSeq l1 l2) ed = mergeSeq (highPart l1 ed) (highPart l2 ed) := by
  intro n
  induction n with
  | zero =>
      intro l1 l2 ed hlen
      have hl1 : l1 = [] := List.length_eq_zero.mp (by omega)
      have hl2 : l2 = [] := List.length_eq_zero.mp (by omega)
      subst hl1; subst hl2
      simp [mergeSeq, highPart]
  | succ n ih =>
      intro l1 l2 ed hlen
      cases l1 with
      | nil => simp [mergeSeq_nil_left, highPart, mergeSeq]
      | cons x xs =>
          cases l2 with
          | nil => simp [mergeSeq_nil_right, highPart, mergeSeq_nil_right]
          | cons y ys =>
              simp only [List.length_cons] at hlen
              rw [mergeSeq_cons_cons]
              by_cases hxy : x.dof < y.dof
              · rw [if_pos hxy]
                by_cases hx : x.dof < ed
                · rw [show highPart (x :: mergeSeq xs (y :: ys)) ed =
                      highPart (mergeSeq xs (y :: ys)) ed from by
                        simp [highPart, List.dropWhile_cons, hx]]
                  rw [ih xs (y :: ys) ed (by simp; omega)]
                  rw [show highPart (x :: xs) ed = highPart xs ed from by
                    simp [highPart, List.dropWhile_cons, hx]]
                · rw [show highPart (x :: mergeSeq xs (y :: ys)) ed =
                      x :: mergeSeq xs (y :: ys) from by
                        simp [highPart, List.dropWhile_cons, hx]]
                  rw [show highPart (x :: xs) ed = x :: xs from by
                    simp [highPart, List.dropWhile_cons, hx]]
                  rw [show highPart (y :: ys) ed = y :: ys from by
                    simp [highPart, List.dropWhile_cons]
                    omega]
                  rw [mergeSeq_cons_cons, if_pos hxy]
              · rw [if_neg hxy]
                by_cases hy : y.dof < ed
                · rw [show highPart (y :: mergeSeq (x :: xs) ys) ed =
                      highPart (mergeSeq (x :: xs) ys) ed from by
                        simp [highPart, List.dropWhile_cons, hy]]
                  rw [ih (x :: xs) ys ed (by simp; omega)]
                  rw [show highPart (y :: ys) ed = highPart ys ed from by
                    simp [highPart, List.dropWhile_cons, hy]]
                · rw [show highPart (y :: mergeSeq (x :: xs) ys) ed =
                      y :: mergeSeq (x :: xs) ys from by
                        simp [highPart, List.dropWhile_cons, hy]]
                  rw [show highPart (y :: ys) ed = y :: ys from by
                    simp [highPart, List.dropWhile_cons, hy]]
                  rw [show highPart (x :: xs) ed = x :: xs from by
                    simp [highPart, List.dropWhile_cons]
                    omega]
                  rw [mergeSeq_cons_cons, if_neg hxy]

theorem mem_lowPart_of_sorted {l : List BaseComponent} {ed : ℤ}
    (hl : sortedByDof l) {x : BaseComponent} (hx : x ∈ l) (hxd : x.dof < ed) :
    x ∈ lowPart l ed := by
  induction l with
  | nil => simp at hx
  | cons a t ih =>
      obtain ⟨ha, ht⟩ := sortedByDof_cons hl
      by_cases hpa : a.dof < ed
      · rw [show lowPart (a :: t) ed = a :: lowPart t ed from by
          simp [lowPart, List.takeWhile_cons, hpa]]
        rcases List.mem_cons.mp hx with rfl | hx1
        · exact List.mem_cons_self _ _
        · exact List.mem_cons_of_mem _ (ih ht hx1)
      · exfalso
        rcases List.mem_cons.mp hx with rfl | hx1
        · exact hpa hxd
        · have := ha x hx1
          omega

theorem mem_highPart {l : List BaseComponent} {ed : ℤ} {x : BaseComponent}
    (hx : x ∈ l) (hxd : ed ≤ x.dof) : x ∈ highPart l ed := by
  induction l with
  | nil => simp at hx
  | cons a t ih =>
      by_cases hpa : a.dof < ed
      · rw [show highPart (a :: t) ed = highPart t ed from by
          simp [highPart, List.dropWhile_cons, hpa]]
        rcases List.mem_cons.mp hx with rfl | hx1
        · omega
        · exact ih hx1
      · rw [show highPart (a :: t) ed = a :: t from by
          simp [highPart, List.dropWhile_cons, hpa]]
        exact hx

theorem lowPart_sorted {l : List BaseComponent} {ed : ℤ} (hl : sortedByDof l) :
    sortedByDof (lowPart l ed) :=
  List.Pairwise.sublist (List.takeWhile_sublist _) hl

theorem highPart_sorted {l : List BaseComponent} {ed : ℤ} (hl : sortedByDof l) :
    sortedByDof (highPart l ed) :=
  List.Pairwise.sublist (List.dropWhile_sublist _) hl

theorem mem_of_mem_lowPart {l : List BaseComponent} {ed : ℤ} {x : BaseComponent}
    (hx : x ∈ lowPart l ed) : x ∈ l :=
  (List.takeWhile_sublist _).subset hx

theorem mem_of_mem_highPart {l : List BaseComponent} {ed : ℤ} {x : BaseComponent}
    (hx : x ∈ highPart l ed) : x ∈ l :=
  (List.dropWhile_sublist _).subset hx

theorem lowPart_all_lt {l : List BaseComponent} {ed : ℤ} :
    ∀ x ∈ lowPart l ed, x.dof < ed := by
  intro x hx
  have := List.mem_takeWhile_imp hx
  simpa using this

theorem highPart_all_ge {l : List BaseComponent} {ed : ℤ} (hl : sortedByDof l) :
    ∀ x ∈ highPart l ed, ed ≤ x.dof := by
  induction l with
  | nil => simp [highPart, mergeSeq]
  | cons a t ih =>
      obtain ⟨ha, ht⟩ := sortedByDof_cons hl
      by_cases hpa : a.dof < ed
      · rw [show highPart (a :: t) ed = highPart t ed from by
          simp [highPart, List.dropWhile_cons, hpa]]
        exact ih ht
      · rw [show highPart (a :: t) ed = a :: t from by
          simp [highPart, List.dropWhile_cons, hpa]]
        intro x hx
        rcases List.mem_cons.mp hx with rfl | hx1
        · omega
        · have := ha x hx1
          omega

theorem coefSum_parts (l : List BaseComponent) (ed : ℤ) :
    coefSum (lowPart l ed) + coefSum (highPart l ed) = coefSum l := by
  conv_rhs => rw [show l = lowPart l ed ++ highPart l ed from
    (List.takeWhile_append_dropWhile _ _).symm]
  rw [coefSum_append]

theorem length_parts (l : List BaseComponent) (ed : ℤ) :
    (lowPart l ed).length + (highPart l ed).length = l.length := by
  conv_rhs => rw [show l = lowPart l ed ++ highPart l ed from
    (List.takeWhile_append_dropWhile _ _).symm]
  rw [List.length_append]

theorem edgeBlock_sorted (ed : ℤ) (en : ℕ) (f : ℕ → ℚ) :
    sortedByDof (edgeBlock ed en f) := by
  unfold sortedByDof edgeBlock
  rw [List.pairwise_map]
  exact (List.pairwise_lt_range en).imp (fun hab => by simp; omega)

theorem edgeBlock_dof_bounds {ed : ℤ} {en : ℕ} {f : ℕ → ℚ} :
    ∀ z ∈ edgeBlock ed en f, ed ≤ z.dof ∧ z.dof < ed + (en : ℤ) := by
  intro z hz
  unfold edgeBlock at hz
  obtain ⟨k, hk, rfl⟩ := List.mem_map.mp hz
  simp only [List.mem_range] at hk
  constructor
  · simp
  · simp
    omega

theorem edgeBlock_length (ed : ℤ) (en : ℕ) (f : ℕ → ℚ) :
    (edgeBlock ed en f).length = en := by
  simp [edgeBlock]

theorem sortedByDof_nodup {l : List BaseComponent} (h : sortedByDof l) :
    (l.map BaseComponent.dof).Nodup := by
  unfold sortedByDof at h
  exact List.Pairwise.map _ (fun a b hab => ne_of_lt hab) h

/-- The merged-and-filled baselist decomposed into the half-merge of the
below-edge parts, the fresh edge block, and the half-merge of the above-edge
parts. -/
theorem merged_baselist_eq_parts (l1 l2 : List BaseComponent) (ed : ℤ) (en : ℕ)
    (f : ℕ → ℚ) (h1 : sortedByDof l1) (h2 : sortedByDof l2)
    (hdisj : ∀ c, c ∈ l1 ∨ c ∈ l2 → c.dof < ed ∨ ed + (en : ℤ) ≤ c.dof) :
    merged_baselist l1 l2 ed en f =
      halfMergePair (lowPart l1 ed) (lowPart l2 ed) ++ edgeBlock ed en f ++
        halfMergePair (highPart l1 ed) (highPart l2 ed) := by
  rw [merged_baselist_spec l1 l2 ed en f hdisj]
  rw [lowPart_mergeSeq (l1.length + l2.length) l1 l2 ed (le_refl _)]
  rw [highPart_mergeSeq (l1.length + l2.length) l1 l2 ed (le_refl _)]
  rw [outList_mergeSeq ((lowPart l1 ed).length + (lowPart l2 ed).length) _ _
    (le_refl _) (lowPart_sorted h1) (lowPart_sorted h2)]
  rw [outList_mergeSeq ((highPart l1 ed).length + (highPart l2 ed).length) _ _
    (le_refl _) (highPart_sorted h1) (highPart_sorted h2)]
/-- C1 (amended): for sorted, duplicate-free input baselists whose dofs avoid
the reserved edge-DOF range `[ed, ed + en)` — as holds for the caller, where
the edge node's dofs are freshly assigned — `merge_baselists` followed by the
edge-DOF fill produces a baselist that is sorted ascending by dof and free of
duplicated dofs; a dof occurring in exactly one input appears with half its
input coefficient, a dof occurring in both inputs appears once with half of
each input coefficient added; the emitted component count is at most
`n1 + n2 + en`; and the non-edge coefficients sum to `(sum1 + sum2) / 2`,
hence to at most `1` when each input sums to at most `1`.  Without the
range-avoidance hypothesis the claim is false (see the counterexample). -/
theorem C1_merge_baselists (l1 l2 : List BaseComponent) (ed : ℤ) (en : ℕ)
    (f : ℕ → ℚ)
    (h1 : sortedByDof l1) (h2 : sortedByDof l2)
    (hdisj : ∀ c, c ∈ l1 ∨ c ∈ l2 → c.dof < ed ∨ ed + (en : ℤ) ≤ c.dof) :
    sortedByDof (merged_baselist l1 l2 ed en f) ∧
    ((merged_baselist l1 l2 ed en f).map BaseComponent.dof).Nodup ∧
    (merge_baselists l1 l2 (some (ed, en))).2.2 ≤ l1.length + l2.length + en ∧
    (∀ x ∈ l1, (∀ y ∈ l2, y.dof ≠ x.dof) →
      half x ∈ merged_baselist l1 l2 ed en f) ∧
    (∀ y ∈ l2, (∀ x ∈ l1, x.dof ≠ y.dof) →
      half y ∈ merged_baselist l1 l2 ed en f) ∧
    (∀ x ∈ l1, ∀ y ∈ l2, x.dof = y.dof →
      (⟨x.dof, y.coef * (1 / 2) + x.coef * (1 / 2)⟩ : BaseComponent) ∈
        merged_baselist l1 l2 ed en f) ∧
    coefSum (merged_baselist l1 l2 ed en f) =
      (coefSum l1 + coefSum l2) * (1 / 2) + coefSum (edgeBlock ed en f) ∧
    (coefSum l1 ≤ 1 → coefSum l2 ≤ 1 →
      coefSum (merged_baselist l1 l2 ed en f) - coefSum (edgeBlock ed en f) ≤ 1) := by
  have hres := merged_baselist_eq_parts l1 l2 ed en f h1 h2 hdisj
  have hAs : sortedByDof (halfMergePair (lowPart l1 ed) (lowPart l2 ed)) :=
    halfMergePair_sorted _ _ _ (le_refl _) (lowPart_sorted h1) (lowPart_sorted h2)
  have hBs : sortedByDof (halfMergePair (highPart l1 ed) (highPart l2 ed)) :=
    halfMergePair_sorted _ _ _ (le_refl _) (highPart_sorted h1) (highPart_sorted h2)
  have hAlt : ∀ a ∈ halfMergePair (lowPart l1 ed) (lowPart l2 ed), a.dof < ed := by
    intro a ha
    rcases halfMergePair_dof_subset _ _ _ (le_refl _) a ha with ⟨y, hy, hay⟩ | ⟨y, hy, hay⟩
    · have := lowPart_all_lt y hy
      omega
    · have := lowPart_all_lt y hy
      omega
  have hBge : ∀ b ∈ halfMergePair (highPart l1 ed) (highPart l2 ed),
      ed + (en : ℤ) ≤ b.dof := by
    intro b hb
    rcases halfMergePair_dof_subset _ _ _ (le_refl _) b hb with ⟨y, hy, hby⟩ | ⟨y, hy, hby⟩
    · have hy1 := highPart_all_ge h1 y hy
      have hy2 := hdisj y (Or.inl (mem_of_mem_highPart hy))
      omega
    · have hy1 := highPart_all_ge h2 y hy
      have hy2 := hdisj y (Or.inr (mem_of_mem_highPart hy))
      omega
  have hsorted : sortedByDof (merged_baselist l1 l2 ed en f) := by
    rw [hres]
    unfold sortedByDof
    rw [List.pairwise_append, List.pairwise_append]
    refine ⟨⟨hAs, edgeBlock_sorted ed en f, ?_⟩, hBs, ?_⟩
    · intro a ha e he
      have h3 := (edgeBlock_dof_bounds e he).1
      have h4 := hAlt a ha
      omega
    · intro a ha b hb
      have h5 := hBge b hb
      rcases List.mem_append.mp ha with ha1 | ha2
      · have := hAlt a ha1
        omega
      · have := (edgeBlock_dof_bounds a ha2).2
        omega
  refine ⟨hsorted, sortedByDof_nodup hsorted, ?_, ?_, ?_, ?_, ?_, ?_⟩
  · obtain ⟨padA, hpadA, hmb⟩ := merge_baselists_char l1 l2 ed en hdisj
    rw [hmb]
    have e1 := outList_length_le (lowPart (mergeSeq l1 l2) ed)
    have e2 := outList_length_le (highPart (mergeSeq l1 l2) ed)
    have e3 := length_parts (mergeSeq l1 l2) ed
    have e4 := mergeSeq_length l1 l2
    simp only []
    omega
  · intro x hx hnot
    rw [hres]
    rcases hdisj x (Or.inl hx) with hlo | hhi
    · have hxin := mem_lowPart_of_sorted h1 hx hlo
      have hnot2 : ∀ y ∈ lowPart l2 ed, y.dof ≠ x.dof :=
        fun y hy => hnot y (mem_of_mem_lowPart hy)
      exact List.mem_append_left _ (List.mem_append_left _
        (halfMergePair_mem_left _ _ _ (le_refl _) (lowPart_sorted h1)
          (lowPart_sorted h2) x hxin hnot2))
    · have hge : ed ≤ x.dof := by omega
      have hxin := mem_highPart hx hge
      have hnot2 : ∀ y ∈ highPart l2 ed, y.dof ≠ x.dof :=
        fun y hy => hnot y (mem_of_mem_highPart hy)
      exact List.mem_append_right _
        (halfMergePair_mem_left _ _ _ (le_refl _) (highPart_sorted h1)
          (highPart_sorted h2) x hxin hnot2)
  · intro y hy hnot
    rw [hres]
    rcases hdisj y (Or.inr hy) with hlo | hhi
    · have hyin := mem_lowPart_of_sorted h2 hy hlo
      have hnot2 : ∀ x ∈ lowPart l1 ed, x.dof ≠ y.dof :=
        fun x hx => hnot x (mem_of_mem_lowPart hx)
      exact List.mem_append_left _ (List.mem_append_left _
        (halfMergePair_mem_right _ _ _ (le_refl _) (lowPart_sorted h1)
          (lowPart_sorted h2) y hyin hnot2))
    · have hge : ed ≤ y.dof := by omega
      have hyin := mem_highPart hy hge
      have hnot2 : ∀ x ∈ highPart l1 ed, x.dof ≠ y.dof :=
        fun x hx => hnot x (mem_of_mem_highPart hx)
      exact List.mem_append_right _
        (halfMergePair_mem_right _ _ _ (le_refl _) (highPart_sorted h1)
          (highPart_sorted h2) y hyin hnot2)
  · intro x hx y hy hxy
    rw [hres]
    rcases hdisj x (Or.inl hx) with hlo | hhi
    · have hxin := mem_lowPart_of_sorted h1 hx hlo
      have hyin := mem_lowPart_of_sorted h2 hy (show y.dof < ed by omega)
      exact List.mem_append_left _ (List.mem_append_left _
        (halfMergePair_mem_both _ _ _ (le_refl _) (lowPart_sorted h1)
          (lowPart_sorted h2) x hxin y hyin hxy))
    · have hxin := mem_highPart hx (show ed ≤ x.dof by omega)
      have hyin := mem_highPart hy (show ed ≤ y.dof by omega)
      exact List.mem_append_right _
        (halfMergePair_mem_both _ _ _ (le_refl _) (highPart_sorted h1)
          (highPart_sorted h2) x hxin y hyin hxy)
  · rw [hres, coefSum_append, coefSum_append]
    rw [halfMergePair_coefSum _ _ _ (le_refl _), halfMergePair_coefSum _ _ _ (le_refl _)]
    have e1 := coefSum_parts l1 ed
    have e2 := coefSum_parts l2 ed
    rw [← e1, ← e2]
    ring
  · intro hc1 hc2
    rw [hres, coefSum_append, coefSum_append]
    rw [halfMergePair_coefSum _ _ _ (le_refl _), halfMergePair_coefSum _ _ _ (le_refl _)]
    have e1 := coefSum_parts l1 ed
    have e2 := coefSum_parts l2 ed
    nlinarith [e1, e2]

/-- C1 counterexample to the claim as stated: the sorted, duplicate-free,
coefficient-sum-`1` input baselist `[{dof 5, coef 1}]` merged (alone) under an
edge node reserving dofs `{4, 5}` produces the dof sequence `[4, 5, 5]` — the
reserved edge block overlaps the input dof, so the output has a duplicated
dof and is not sorted.  The claim needs the inputs' dofs to avoid the
reserved edge range. -/
theorem C1_counterexample :
    sortedByDof [(⟨5, 1⟩ : BaseComponent)] ∧
    sortedByDof ([] : List BaseComponent) ∧
    coefSum [(⟨5, 1⟩ : BaseComponent)] ≤ 1 ∧
    (merged_baselist [⟨5, 1⟩] [] 4 2 (fun _ => 1)).map BaseComponent.dof =
      [4, 5, 5] ∧
    ¬ ((merged_baselist [⟨5, 1⟩] [] 4 2
        (fun _ => 1)).map BaseComponent.dof).Nodup := by
  have hmap : (merged_baselist [(⟨5, 1⟩ : BaseComponent)] [] 4 2
      (fun _ => 1)).map BaseComponent.dof = [4, 5, 5] := by
    norm_num [merged_baselist, merge_baselists, mergeFinish, edgeCount, mergeLoop,
      output_component, fill_edge_dofs, List.range_succ, List.replicate_succ, half]
  refine ⟨by simp [sortedByDof], by simp [sortedByDof],
    by norm_num [coefSum], hmap, ?_⟩
  rw [hmap]
  decide

theorem C1_merge_baselists_witness :
    sortedByDof (merged_baselist [(⟨0, 1⟩ : BaseComponent)] [] 1 1 (fun _ => 1)) ∧
    ((merged_baselist [(⟨0, 1⟩ : BaseComponent)] [] 1 1
        (fun _ => 1)).map BaseComponent.dof).Nodup ∧
    (merge_baselists [(⟨0, 1⟩ : BaseComponent)] [] (some (1, 1))).2.2 ≤
      [(⟨0, 1⟩ : BaseComponent)].length + ([] : List BaseComponent).length + 1 ∧
    (∀ x ∈ [(⟨0, 1⟩ : BaseComponent)],
      (∀ y ∈ ([] : List BaseComponent), y.dof ≠ x.dof) →
      half x ∈ merged_baselist [(⟨0, 1⟩ : BaseComponent)] [] 1 1 (fun _ => 1)) ∧
    (∀ y ∈ ([] : List BaseComponent),
      (∀ x ∈ [(⟨0, 1⟩ : BaseComponent)], x.dof ≠ y.dof) →
      half y ∈ merged_baselist [(⟨0, 1⟩ : BaseComponent)] [] 1 1 (fun _ => 1)) ∧
    (∀ x ∈ [(⟨0, 1⟩ : BaseComponent)], ∀ y ∈ ([] : List BaseComponent),
      x.dof = y.dof →
      (⟨x.dof, y.coef * (1 / 2) + x.coef * (1 / 2)⟩ : BaseComponent) ∈
        merged_baselist [(⟨0, 1⟩ : BaseComponent)] [] 1 1 (fun _ => 1)) ∧
    coefSum (merged_baselist [(⟨0, 1⟩ : BaseComponent)] [] 1 1 (fun _ => 1)) =
      (coefSum [(⟨0, 1⟩ : BaseComponent)] + coefSum ([] : List BaseComponent)) *
        (1 / 2) + coefSum (edgeBlock 1 1 (fun _ => 1)) ∧
    (coefSum [(⟨0, 1⟩ : BaseComponent)] ≤ 1 →
      coefSum ([] : List BaseComponent) ≤ 1 →
      coefSum (merged_baselist [(⟨0, 1⟩ : BaseComponent)] [] 1 1 (fun _ => 1)) -
        coefSum (edgeBlock 1 1 (fun _ => 1)) ≤ 1) :=
  C1_merge_baselists [⟨0, 1⟩] [] 1 1 (fun _ => 1)
    (by simp [sortedByDof]) (by simp [sortedByDof])
    (by
      intro c hc
      rcases hc with h | h
      · simp at h
        subst h
        left
        decide
      · simp at h)

/-- C7 (amended): zero coefficients CAN be stored in a constrained node's
baselist (a zero boundary-projection coefficient of an endpoint vertex or a
zero edge shape-function value at the edge midpoint is written as-is; see the
counterexample); the invariant that holds is at traversal time:
`get_vertex_assembly_list` drops every zero-coefficient baselist entry, so a
zero coefficient is never emitted into an assembly list for a constrained
vertex. -/
theorem C7_assembly_zero_filtered (index dof : ℤ) (bc : Option ℚ)
    (bl : List BaseComponent) :
    ∀ t ∈ get_vertex_assembly_list true index dof bc bl, t.coef ≠ 0 := by
  intro t ht
  unfold get_vertex_assembly_list at ht
  simp only [Bool.not_true, Bool.false_eq_true, if_false] at ht
  rw [List.mem_flatMap] at ht
  obtain ⟨c, hc, ht2⟩ := ht
  by_cases hz : c.coef ≠ 0
  · rw [if_pos hz] at ht2
    simp only [List.mem_singleton] at ht2
    subst ht2
    exact hz
  · rw [if_neg hz] at ht2
    simp at ht2

theorem C7_assembly_zero_filtered_witness :
    (⟨3, 7, 1⟩ : Triplet) ∈ get_vertex_assembly_list true 3 0 none [⟨7, 1⟩] ∧
    (⟨3, 7, 1⟩ : Triplet).coef ≠ 0 :=
  ⟨by simp [get_vertex_assembly_list],
    C7_assembly_zero_filtered 3 0 none [⟨7, 1⟩] ⟨3, 7, 1⟩
      (by simp [get_vertex_assembly_list])⟩

/-- C7 counterexample to the claim as stated: merging the single-entry
baselist `{dof -1, coef 0}` (an endpoint vertex whose boundary-projection
coefficient is `0`) with `{dof 7, coef 1}` under edge node `(3, 1)` with a
zero shape value at the edge midpoint stores the zero-coefficient entries
`{-1, 0}` and `{3, 0}` in the constrained node's baselist. -/
theorem C7_counterexample :
    (⟨-1, 0⟩ : BaseComponent) ∈
      merged_baselist [⟨-1, 0⟩] [⟨7, 1⟩] 3 1 (fun _ => 0) ∧
    (⟨3, 0⟩ : BaseComponent) ∈
      merged_baselist [⟨-1, 0⟩] [⟨7, 1⟩] 3 1 (fun _ => 0) ∧
    (⟨-1, 0⟩ : BaseComponent).coef = 0 := by
  have hev : merged_baselist [(⟨-1, 0⟩ : BaseComponent)] [⟨7, 1⟩] 3 1
      (fun _ => 0) = [⟨-1, 0⟩, ⟨3, 0⟩, ⟨7, 1 / 2⟩] := by
    norm_num [merged_baselist, merge_baselists, mergeFinish, edgeCount, mergeLoop,
      output_component, fill_edge_dofs, List.range_succ, List.replicate_succ, half]
  rw [hev]
  refine ⟨by simp, by simp, rfl⟩

end Hermes